import Mathlib

/-!
# go-generate-license: the `gl` command (`cmd/gl/gl.go`)

A shallow embedding of `gl.go` and of the Go library calls it makes, followed by
theorems about rendering, the no-overwrite rule, author discovery and the
command table.

Conventions of the embedding:

* a Go `string` holds text and is the list of its Unicode code points
  (`GoString`); the two placeholders are ASCII, so searching by code point and
  searching by byte find the same occurrences;
* a Go `int` is carried as `Int`; `generate` does no arithmetic on the year;
* `-1` results of the library are `none`;
* the operating system is explicit state: a table from cleaned absolute paths to
  entries, and the working directory.
-/

namespace GenLicense

/-- A Go string, as the list of its code points. -/
abbrev GoString := List Char

/-! ## Library: package `strings` -/

/-- Library function `strings.Index(s, substr)`: the index of the first instance of
`substr` in `s`; `none` stands for Go's `-1`. -/
def Index : GoString → GoString → Option Nat
  | [], substr => if substr.isPrefixOf [] then some 0 else none
  | c :: s, substr =>
    if substr.isPrefixOf (c :: s) then some 0 else (Index s substr).map (· + 1)

/-- The loop of `strings.Replace` for a non-empty `old`: at most `k` times, copy up
to the next instance of `old`, write `new`, and go on behind that instance. -/
def replaceLoop (old new : GoString) : Nat → GoString → GoString
  | 0, s => s
  | k + 1, s =>
    match Index s old with
    | none => s
    | some j => s.take j ++ new ++ replaceLoop old new k (s.drop (j + old.length))

/-- The loop of `strings.Replace` for an empty `old`: `new` is written at the start
and after each code point, at most `k` times. -/
def replaceEmpty (new : GoString) : Nat → GoString → GoString
  | 0, s => s
  | _ + 1, [] => new
  | k + 1, c :: s => new ++ c :: replaceEmpty new k s

/-- Library function `strings.Replace(s, old, new, n)`: a copy of `s` with the first
`n` non-overlapping instances of `old` replaced by `new`; a negative `n` lifts the
limit. -/
def Replace (s old new : GoString) (n : Int) : GoString :=
  if old = new ∨ n = 0 then s
  else
    let k := if n < 0 then s.length + 1 else n.toNat
    if old = [] then replaceEmpty new k s else replaceLoop old new k s

/-- Library function `unicode.IsSpace`: the code points with the White_Space
property. -/
def isSpace (c : Char) : Bool :=
  let n := c.toNat
  (9 ≤ n && n ≤ 13) || n == 32 || n == 0x85 || n == 0xA0 || n == 0x1680 ||
  (0x2000 ≤ n && n ≤ 0x200A) || n == 0x2028 || n == 0x2029 || n == 0x202F ||
  n == 0x205F || n == 0x3000

/-- Library function `strings.TrimSpace(s)`: `s` without leading and trailing white
space. -/
def TrimSpace (s : GoString) : GoString :=
  ((s.dropWhile isSpace).reverse.dropWhile isSpace).reverse

/-! ## Library: package `strconv` -/

/-- The character of a decimal digit. -/
def digitChar (d : Nat) : Char := Char.ofNat (48 + d)

/-- The digit loop of `strconv.FormatInt` in base 10: digits are produced from the
least significant one and put in front of `acc`. The first argument bounds the
number of digits. -/
def formatBits : Nat → Nat → GoString → GoString
  | 0, _, acc => acc
  | fuel + 1, u, acc =>
    if u < 10 then digitChar u :: acc
    else formatBits fuel (u / 10) (digitChar (u % 10) :: acc)

/-- Decimal form of a natural number. -/
def formatUint (u : Nat) : GoString := formatBits (u + 1) u []

/-- Library function `strconv.Itoa(i)`: the decimal form of `i`, with a leading `-`
when `i` is negative. -/
def Itoa (i : Int) : GoString :=
  if i < 0 then '-' :: formatUint i.natAbs else formatUint i.toNat

/-! ## Rendering (`generate`, the two `strings.Replace` lines) -/

/-- The year placeholder. -/
def yearToken : GoString := "<YEAR>".toList

/-- The author placeholder. -/
def authorToken : GoString := "<AUTHOR>".toList

/-- The text `generate` writes, from the template `txt`:
`txt = strings.Replace(txt, "<YEAR>", strconv.Itoa(year), 1)` and then
`txt = strings.Replace(txt, "<AUTHOR>", name, 1)`. -/
def render (txt name : GoString) (year : Int) : GoString :=
  let txt := Replace txt yearToken (Itoa year) 1
  Replace txt authorToken name 1

/-! ## Library: paths and the file system -/

/-- A cleaned absolute path, as the list of its components below the root. -/
abbrev Path := List GoString

/-- The components of a path text, split at each slash. -/
def splitSlash : GoString → List GoString
  | [] => [[]]
  | c :: s =>
    if c = '/' then [] :: splitSlash s
    else
      match splitSlash s with
      | [] => [[c]]
      | w :: ws => (c :: w) :: ws

/-- Lexical cleaning as `filepath.Clean` does it on a rooted path: empty components
and `.` are dropped, `..` removes the component before it and is dropped at the
root. `acc` is the cleaned path so far. -/
def cleanOnto : Path → List GoString → Path
  | acc, [] => acc
  | acc, c :: cs =>
    if c = [] ∨ c = ['.'] then cleanOnto acc cs
    else if c = ['.', '.'] then cleanOnto acc.dropLast cs
    else cleanOnto (acc ++ [c]) cs

/-- Library call `filepath.Abs(filepath.Clean(output))` on a Unix system: a rooted
path is cleaned, any other path is joined to the working directory `wd` (the result
of `os.Getwd`, which may fail) and cleaned. -/
def resolve (wd : Except GoString Path) (output : GoString) : Except GoString Path :=
  match output with
  | '/' :: _ => .ok (cleanOnto [] (splitSlash output))
  | _ =>
    match wd with
    | .error e => .error e
    | .ok d => .ok (cleanOnto d (splitSlash output))

/-- An entry of the file system: a regular file with its content, or a directory,
which may refuse the creation of entries. -/
inductive Entry where
  | file (data : GoString)
  | dir (writable : Bool)
deriving DecidableEq

/-- Error numbers of the system calls modelled here. -/
inductive Errno where
  | ENOENT
  | ENOTDIR
  | EISDIR
  | EACCES
deriving DecidableEq

/-- The state of the operating system seen by the process: the table of entries by
path (the root directory is the entry at `[]`) and the working directory. -/
structure OS where
  files : List (Path × Entry)
  wd : Except GoString Path

/-- The entry a table holds at a path. -/
def lookup : List (Path × Entry) → Path → Option Entry
  | [], _ => none
  | (q, e) :: rest, p => if q = p then some e else lookup rest p

/-- The table with the entry at `p` set to `e`. -/
def store (files : List (Path × Entry)) (p : Path) (e : Entry) : List (Path × Entry) :=
  (p, e) :: files.filter (fun x => !decide (x.1 = p))

/-- Path lookup of the kernel: from the directory `cur`, follow the components
`rest`; every component on the way must name a directory. -/
def walk (files : List (Path × Entry)) : Path → Path → Except Errno Entry
  | cur, [] =>
    match lookup files cur with
    | some e => .ok e
    | none => .error .ENOENT
  | cur, c :: rest =>
    match lookup files cur with
    | none => .error .ENOENT
    | some (.file _) => .error .ENOTDIR
    | some (.dir _) => walk files (cur ++ [c]) rest

/-- Library function `os.Stat(path)`: the entry at the path, or the error. -/
def Stat (os : OS) (path : Path) : Except Errno Entry := walk os.files [] path

/-- Library function `os.IsNotExist(err)`, on the error part of a result. -/
def IsNotExist {α : Type} : Except Errno α → Bool
  | .error .ENOENT => true
  | _ => false

/-- Library function `ioutil.WriteFile(path, data, perm)`: create the file or
truncate it, and write `data`. The new state and the error, if any. -/
def WriteFile (os : OS) (path : Path) (data : GoString) : OS × Option Errno :=
  if path = [] then (os, some .EISDIR)
  else
    match Stat os path.dropLast with
    | .error e => (os, some e)
    | .ok (.file _) => (os, some .ENOTDIR)
    | .ok (.dir w) =>
      match lookup os.files path with
      | some (.dir _) => (os, some .EISDIR)
      | some (.file _) => ({ os with files := store os.files path (.file data) }, none)
      | none =>
        if w then ({ os with files := store os.files path (.file data) }, none)
        else (os, some .EACCES)

/-! ## `gl.go` -/

/-- A row of the license table (`type license struct`). -/
structure license where
  Alias : GoString
  Name : GoString
deriving DecidableEq

/-- The constant `usage`, up to its `%s`. -/
def usage : GoString := "Generate a LICENSE file as ".toList

/-- The template box (`packr.New("License Templates", "./templates")`): what
`FindString` gives for a file name, the text or an error. The template files are
data assets outside `gl.go`, so the box is a parameter. -/
abbrev Box := GoString → Except GoString GoString

/-- How a call ended: it returned, or `log.Fatal` ended the process with status 1. -/
inductive Exit where
  | returned
  | fatal
deriving DecidableEq

/-- What a call of `generate` did: the state it leaves, the lines it logged, the
file names it asked of the template box, and how it ended. -/
structure Run where
  os : OS
  log : List GoString
  loaded : List GoString
  exit : Exit

/-- Function `getTemplate(license)`: the text of `license + ".txt"` in the box; the
error is for `log.Fatal`. -/
def getTemplate (box : Box) (license : GoString) : Except GoString GoString :=
  box (license ++ ".txt".toList)

/-- Function `isExists(path)`: `!os.IsNotExist(err)` for the error of `os.Stat`. -/
def isExists (os : OS) (path : Path) : Bool := !IsNotExist (Stat os path)

/-- Function `generate(license, name, year, output)`. -/
def generate (box : Box) (os : OS) (license name : GoString) (year : Int)
    (output : GoString) : Run :=
  match resolve os.wd output with
  | .error e => { os := os, log := [e], loaded := [], exit := .fatal }
  | .ok path =>
    if isExists os path then
      { os := os, log := ["LICENSE file already exists.".toList], loaded := [],
        exit := .returned }
    else
      match getTemplate box license with
      | .error e =>
        { os := os, log := [e], loaded := [license ++ ".txt".toList], exit := .fatal }
      | .ok txt =>
        let txt := render txt name year
        { os := (WriteFile os path txt).1, log := [],
          loaded := [license ++ ".txt".toList], exit := .returned }

/-- The external command runner: for an argument vector, the standard output and
the error of `exec.Command(...).Output()`. -/
abbrev Shell := List GoString → GoString × Option GoString

/-- The argument vector of `exec.Command("git", "config", "--"+option, "user.name")`. -/
def queryArgs (option : GoString) : List GoString :=
  ["git".toList, "config".toList, "--".toList ++ option, "user.name".toList]

/-- Function `gitconfig(option)`: the output of the query, or the empty string when
the query ends with an error. -/
def gitconfig (sh : Shell) (option : GoString) : GoString :=
  match sh (queryArgs option) with
  | (_, some _) => []
  | (buf, none) => buf

/-- Function `defaultAuthor()`; the error is the value it panics with. -/
def defaultAuthor (sh : Shell) : Except GoString GoString :=
  let name := gitconfig sh "local".toList
  if name ≠ [] then .ok (TrimSpace name)
  else
    let name := gitconfig sh "global".toList
    if name ≠ [] then .ok (TrimSpace name)
    else
      let name := gitconfig sh "system".toList
      if name ≠ [] then .ok (TrimSpace name)
      else .error "could not detect username".toList

/-- The table `licenses` of `main`. -/
def licenses : List license :=
  [ { Alias := "agpl".toList, Name := "GNU AGPLv3".toList },
    { Alias := "apache".toList, Name := "Apache License 2.0".toList },
    { Alias := "bsd2".toList, Name := "BSD 2-Clause \"Simplified\" License".toList },
    { Alias := "bsd3".toList, Name := "BSD 3-Clause \"New\" or \"Revised\" License".toList },
    { Alias := "eclipse".toList, Name := "Eclipse Public License 2.0".toList },
    { Alias := "gpl".toList, Name := "GNU GPLv3".toList },
    { Alias := "lgpl".toList, Name := "GNU LGPLv3".toList },
    { Alias := "lgpl2".toList, Name := "GNU LGPLv2.1".toList },
    { Alias := "mit".toList, Name := "MIT License".toList },
    { Alias := "mpl".toList, Name := "Mozilla Public License 2.0".toList },
    { Alias := "unlicense".toList, Name := "The Unlicense".toList } ]

/-- A subcommand (`cli.Command`): its name, its usage line and the names of its
flags. The action is the same closure for all of them, see `action`. -/
structure Command where
  Name : GoString
  Usage : GoString
  Flags : List GoString
deriving DecidableEq

/-- The names of the three flags of `main`. -/
def flags : List GoString := ["author".toList, "year".toList, "output".toList]

/-- The slice `commands` of `main`: one command appended per row of `licenses`. -/
def commands : List Command :=
  licenses.foldl
    (fun cmds l => cmds ++ [{ Name := l.Alias, Usage := usage ++ l.Name, Flags := flags }])
    []

/-- The closure `action` of `main`, for the invoked command `c.Command` and the
values the flags left in `author`, `year` and `output`. -/
def action (box : Box) (os : OS) (author : GoString) (year : Int) (output : GoString)
    (command : Command) : Run :=
  generate box os command.Name author year output

/-- Dispatch of `app.Run`: the first command with the name given on the command
line runs its action; `none` when no command has that name. -/
def dispatch (box : Box) (os : OS) (author : GoString) (year : Int) (output : GoString)
    (arg : GoString) : Option Run :=
  (commands.find? (fun c => decide (c.Name = arg))).map (action box os author year output)

/-! ## Notions used to state the properties -/

/-- The text `s` splits at the first occurrence of `sub`: `s = u ++ sub ++ v`, and
no occurrence of `sub` in `s` starts before the end of `u`. -/
def FirstSplit (s sub u v : GoString) : Prop :=
  s = u ++ sub ++ v ∧ ∀ u' v', s = u' ++ sub ++ v' → u.length ≤ u'.length

/-- The text `r` is the template `t` with its first `<YEAR>` replaced by `d` and its
first `<AUTHOR>` replaced by `a`, every other character in place and in order; a
placeholder that does not occur in `t` changes nothing. -/
inductive Rendered (t d a : GoString) : GoString → Prop
  | neither : ¬ yearToken <:+: t → ¬ authorToken <:+: t → Rendered t d a t
  | yearOnly (u v : GoString) :
    FirstSplit t yearToken u v → ¬ authorToken <:+: t → Rendered t d a (u ++ d ++ v)
  | authorOnly (u v : GoString) :
    ¬ yearToken <:+: t → FirstSplit t authorToken u v → Rendered t d a (u ++ a ++ v)
  | yearFirst (u m v : GoString) :
    FirstSplit t yearToken u (m ++ authorToken ++ v) →
    FirstSplit t authorToken (u ++ yearToken ++ m) v →
    Rendered t d a (u ++ d ++ m ++ a ++ v)
  | authorFirst (u m v : GoString) :
    FirstSplit t authorToken u (m ++ yearToken ++ v) →
    FirstSplit t yearToken (u ++ authorToken ++ m) v →
    Rendered t d a (u ++ a ++ m ++ d ++ v)

/-- The number a string of decimal digits stands for. -/
def decimalValue (ds : GoString) : Nat :=
  ds.foldl (fun n c => 10 * n + (c.toNat - 48)) 0

/-- The text `ds` is the unpadded decimal form of `n`: digits only, at least one,
no leading zero except for zero itself, and of value `n`. -/
def IsDecimalOf (ds : GoString) (n : Nat) : Prop :=
  ds ≠ [] ∧ (∀ c ∈ ds, c.isDigit = true) ∧ (1 < ds.length → ds.head? ≠ some '0') ∧
  decimalValue ds = n

/-- The text `s` is the decimal form of the integer `y`, with a leading `-` when `y`
is negative. -/
def IsDecimalOfInt (s : GoString) (y : Int) : Prop :=
  (0 ≤ y ∧ IsDecimalOf s y.toNat) ∨ (y < 0 ∧ ∃ ds, s = '-' :: ds ∧ IsDecimalOf ds y.natAbs)

/-- The least index at which `sub` occurs in `s`: the position of the first tail of
`s` that starts with `sub`. -/
def firstOccurrence (s sub : GoString) : Option Nat :=
  s.tails.findIdx? (fun w => sub.isPrefixOf w)

/-- Simultaneous substitution, following the words of the specification: both
placeholders are located in the template `t` itself, and `t` is copied with the
year text `d` in place of its first `<YEAR>` and the author text `a` in place of its
first `<AUTHOR>`. -/
def substituteBoth (t d a : GoString) : GoString :=
  match firstOccurrence t yearToken, firstOccurrence t authorToken with
  | none, none => t
  | some i, none => t.take i ++ d ++ t.drop (i + yearToken.length)
  | none, some j => t.take j ++ a ++ t.drop (j + authorToken.length)
  | some i, some j =>
    if i < j then
      t.take i ++ d ++ (t.drop (i + yearToken.length)).take (j - (i + yearToken.length))
        ++ a ++ t.drop (j + authorToken.length)
    else
      t.take j ++ a ++ (t.drop (j + authorToken.length)).take (i - (j + authorToken.length))
        ++ d ++ t.drop (i + yearToken.length)

/-- The number of positions of `s` at which `sub` occurs. -/
def countOccurrences (s sub : GoString) : Nat :=
  (s.tails.filter (fun w => sub.isPrefixOf w)).length

/-- No non-empty end of `x` starts like `a` and no non-empty end of `a` starts like
`x`: an occurrence of `a` and an occurrence of `x` in a text never overlap. -/
def Apart (x a : GoString) : Prop :=
  (∀ c ∈ x.tails, c ≠ [] → ¬ c <+: a ∧ ¬ a <+: c) ∧
  (∀ e ∈ a.tails, e ≠ [] → ¬ e <+: x ∧ ¬ x <+: e)

/-- The two placeholders. -/
def tokens : List GoString := [yearToken, authorToken]

/-- The text `s` ends with an opened placeholder: a non-empty end of `s` is a
beginning of `<YEAR>` or `<AUTHOR>`, but not the whole of it (such as `<` or `<AUT`
at the end of `s`). -/
def EndsOpen (s : GoString) : Prop :=
  ∃ x ∈ s.tails, x ≠ [] ∧ ∃ tok ∈ tokens, x <+: tok ∧ x ≠ tok

/-- The text `s` starts with the rest of a placeholder: a non-empty beginning of `s`
is an end of `<YEAR>` or `<AUTHOR>`, but not the whole of it (such as `>` or `HOR>`
at the start of `s`). -/
def StartsOpen (s : GoString) : Prop :=
  ∃ z ∈ s.inits, z ≠ [] ∧ ∃ tok ∈ tokens, z <:+ tok ∧ z ≠ tok

/-- The template `t` holds each placeholder exactly once, the text before its
`<AUTHOR>` does not end with an opened placeholder and the text behind it does not
start with the rest of one. -/
def Tidy (t : GoString) : Prop :=
  countOccurrences t yearToken = 1 ∧ countOccurrences t authorToken = 1 ∧
  ∀ j ∈ firstOccurrence t authorToken,
    ¬ EndsOpen (t.take j) ∧ ¬ StartsOpen (t.drop (j + authorToken.length))

/-- The text `s` holds no placeholder. -/
def NoToken (s : GoString) : Prop := ∀ tok ∈ tokens, ¬ tok <:+: s

/-! ## Sample worlds -/

/-- A box that holds one template, `mit.txt`. -/
def sampleBox : Box := fun file =>
  if file = "mit.txt".toList then .ok "Copyright (c) <YEAR> <AUTHOR>".toList
  else .error "file does not exist".toList

/-- The path of a project directory, `/home/u/proj`. -/
def projDir : Path := ["home".toList, "u".toList, "proj".toList]

/-- A system whose project directory is empty. -/
def emptyProject : OS :=
  { files := [([], .dir true), (["home".toList], .dir true),
      (["home".toList, "u".toList], .dir true), (projDir, .dir true)],
    wd := .ok projDir }

/-- A system whose project directory holds a file `LICENSE` with some text. -/
def occupiedProject : OS :=
  { emptyProject with
    files := emptyProject.files ++ [(projDir ++ ["LICENSE".toList], .file "my own terms".toList)] }

/-- A template with an address in angle brackets before the copyright line. -/
def fsfTemplate : GoString := "<https://fsf.org/> Copyright (C) <YEAR> <AUTHOR>".toList

/-- A shell in which `user.name` is set to the empty text in the local
configuration (the query prints an empty line) and to a name in the global one. -/
def blankLocalShell : Shell := fun args =>
  if args = queryArgs "local".toList then ("\n".toList, none)
  else if args = queryArgs "global".toList then ("Jane Doe\n".toList, none)
  else ([], some "exit status 1".toList)

/-- A shell in which only the local configuration answers, with an empty line. -/
def onlyBlankShell : Shell := fun args =>
  if args = queryArgs "local".toList then ("\n".toList, none)
  else ([], some "exit status 1".toList)

/-! ## `strings.Index` and `strings.Replace` -/

theorem Index_cons (c : Char) (s sub : GoString) :
    Index (c :: s) sub = if sub <+: c :: s then some 0 else (Index s sub).map (· + 1) := by
  simp [Index]

theorem Index_eq_none_iff (s sub : GoString) : Index s sub = none ↔ ¬ sub <:+: s := by
  induction s with
  | nil => simp [Index]
  | cons c s ih =>
    rw [Index_cons, List.infix_cons_iff]
    by_cases h : sub <+: c :: s
    · simp [h]
    · simp [h, ih]

theorem FirstSplit_of_Index {s sub : GoString} {i : Nat} (h : Index s sub = some i) :
    ∃ u v, FirstSplit s sub u v ∧ u.length = i := by
  induction s generalizing i with
  | nil =>
    have hsub : sub = [] := by
      by_contra hne
      simp [Index, hne] at h
    subst hsub
    simp [Index] at h
    exact ⟨[], [], ⟨rfl, fun _ _ _ => Nat.zero_le _⟩, h⟩
  | cons c s ih =>
    rw [Index_cons] at h
    by_cases hp : sub <+: c :: s
    · simp [hp] at h
      obtain ⟨v, hv⟩ := hp
      exact ⟨[], v, ⟨by simpa using hv.symm, fun _ _ _ => Nat.zero_le _⟩, h⟩
    · simp only [hp, if_false, Option.map_eq_some'] at h
      obtain ⟨j, hj, rfl⟩ := h
      obtain ⟨u, v, ⟨hs, hmin⟩, hlen⟩ := ih hj
      refine ⟨c :: u, v, ⟨by simp [hs], ?_⟩, by simp [hlen]⟩
      intro u' v' h'
      cases u' with
      | nil => exact absurd ⟨v', by simpa using h'.symm⟩ hp
      | cons c' u'' =>
        simp only [List.cons_append, List.cons.injEq] at h'
        have := hmin u'' v' h'.2
        simp only [List.length_cons]; omega

theorem FirstSplit_unique {s sub u v u' v' : GoString}
    (h : FirstSplit s sub u v) (h' : FirstSplit s sub u' v') : u = u' ∧ v = v' := by
  have hlen : u.length = u'.length :=
    Nat.le_antisymm (h.2 u' v' h'.1) (h'.2 u v h.1)
  have heq : u ++ (sub ++ v) = u' ++ (sub ++ v') := by
    rw [← List.append_assoc, ← List.append_assoc, ← h.1, ← h'.1]
  obtain ⟨hu, hrest⟩ := List.append_inj heq hlen
  exact ⟨hu, List.append_cancel_left hrest⟩

theorem Index_of_FirstSplit {s sub u v : GoString} (h : FirstSplit s sub u v) :
    Index s sub = some u.length := by
  cases hi : Index s sub with
  | none =>
    exact absurd ⟨u, v, h.1.symm⟩ ((Index_eq_none_iff s sub).mp hi)
  | some i =>
    obtain ⟨u', v', hf, hlen⟩ := FirstSplit_of_Index hi
    rw [← hlen, (FirstSplit_unique h hf).1]

theorem exists_FirstSplit {s sub : GoString} (h : sub <:+: s) : ∃ u v, FirstSplit s sub u v := by
  cases hi : Index s sub with
  | none => exact absurd h ((Index_eq_none_iff s sub).mp hi)
  | some i =>
    obtain ⟨u, v, hf, -⟩ := FirstSplit_of_Index hi
    exact ⟨u, v, hf⟩

theorem take_drop_of_split {s u w v : GoString} (h : s = u ++ w ++ v) :
    s.take u.length = u ∧ s.drop (u.length + w.length) = v := by
  subst h
  constructor
  · rw [List.append_assoc, List.take_left]
  · rw [← List.length_append, List.drop_left]

theorem Replace_one (s old new : GoString) (hold : old ≠ []) :
    Replace s old new 1 =
      match Index s old with
      | none => s
      | some i => s.take i ++ new ++ s.drop (i + old.length) := by
  unfold Replace
  by_cases heq : old = new
  · subst heq
    simp only [true_or, if_true]
    cases hi : Index s old with
    | none => rfl
    | some i =>
      obtain ⟨u, v, hf, hlen⟩ := FirstSplit_of_Index hi
      obtain ⟨h1, h2⟩ := take_drop_of_split hf.1
      simp only [← hlen, h1, h2]
      exact hf.1
  · simp only [heq, one_ne_zero, or_self, if_false, hold]
    have h1 : (if (1 : Int) < 0 then s.length + 1 else (1 : Int).toNat) = 1 := by simp
    simp only [h1, replaceLoop]

theorem Replace_of_absent {s old : GoString} (new : GoString) (hold : old ≠ [])
    (h : ¬ old <:+: s) : Replace s old new 1 = s := by
  rw [Replace_one s old new hold, (Index_eq_none_iff s old).mpr h]

theorem Replace_of_FirstSplit {s old u v : GoString} (new : GoString) (hold : old ≠ [])
    (h : FirstSplit s old u v) : Replace s old new 1 = u ++ new ++ v := by
  rw [Replace_one s old new hold, Index_of_FirstSplit h]
  obtain ⟨h1, h2⟩ := take_drop_of_split h.1
  simp only [h1, h2]

/-! ## Occurrences that cannot overlap -/

theorem mem_tails_of_append_eq {x p c : GoString} (h : x = p ++ c) : c ∈ x.tails := by
  rw [List.mem_tails]; exact ⟨p, h.symm⟩

/-- Where `x` and `a` cannot overlap, an occurrence of `a` in `u ++ x ++ v` lies in
`u` or in `v`. -/
theorem split_of_Apart {x a u v p q : GoString} (hx : Apart x a)
    (h : u ++ x ++ v = p ++ a ++ q) :
    (∃ m, u = p ++ a ++ m ∧ q = m ++ x ++ v) ∨ (∃ m, p = u ++ x ++ m ∧ v = m ++ a ++ q) := by
  rw [List.append_assoc, List.append_assoc, List.append_eq_append_iff] at h
  rcases h with ⟨a', hp, h2⟩ | ⟨c', hu, h2⟩
  · -- the occurrence of `a` starts at or behind the start of `x`
    rw [List.append_eq_append_iff] at h2
    rcases h2 with ⟨b, ha', hv⟩ | ⟨c, hxc, hc⟩
    · exact Or.inr ⟨b, by simp [hp, ha'], by simp [hv]⟩
    · by_cases hcn : c = []
      · subst hcn
        refine Or.inr ⟨[], ?_, ?_⟩
        · simp only [List.append_nil] at hxc
          simp [hp, hxc]
        · simpa using hc.symm
      · have hmem : c ∈ x.tails := mem_tails_of_append_eq hxc
        have hcmp : c <+: a ∨ a <+: c :=
          List.prefix_or_prefix_of_prefix ⟨v, hc.symm⟩ ⟨q, rfl⟩
        have := hx.1 c hmem hcn
        tauto
  · -- the occurrence of `a` starts before the start of `x`
    rw [List.append_eq_append_iff] at h2
    rcases h2 with ⟨b, hc', hq⟩ | ⟨e, hae, hxe⟩
    · exact Or.inl ⟨b, by simp [hu, hc'], by simp [hq]⟩
    · by_cases hen : e = []
      · subst hen
        refine Or.inl ⟨[], ?_, ?_⟩
        · simp only [List.append_nil] at hae
          simp [hu, hae]
        · simpa using hxe.symm
      · have hmem : e ∈ a.tails := mem_tails_of_append_eq hae
        have hcmp : e <+: x ∨ x <+: e :=
          List.prefix_or_prefix_of_prefix ⟨q, hxe.symm⟩ ⟨v, rfl⟩
        have := hx.2 e hmem hen
        tauto

theorem not_infix_of_Apart {x a u v : GoString} (hx : Apart x a)
    (hu : ¬ a <:+: u) (hv : ¬ a <:+: v) : ¬ a <:+: u ++ x ++ v := by
  rintro ⟨p, q, h⟩
  rcases split_of_Apart hx h.symm with ⟨m, h1, -⟩ | ⟨m, -, h2⟩
  · exact hu ⟨p, m, h1.symm⟩
  · exact hv ⟨m, q, h2.symm⟩

theorem FirstSplit_left_of_Apart {x a u v p m : GoString} (hx : Apart x a)
    (h : FirstSplit u a p m) : FirstSplit (u ++ x ++ v) a p (m ++ x ++ v) := by
  refine ⟨by simp [h.1], ?_⟩
  intro p' q' h'
  rcases split_of_Apart hx h' with ⟨m', h1, -⟩ | ⟨m', h1, -⟩
  · exact h.2 p' m' h1
  · have : p.length ≤ u.length := by rw [h.1]; simp only [List.length_append]; omega
    rw [h1]; simp only [List.length_append]; omega

theorem FirstSplit_right_of_Apart {x a u v m q : GoString} (hx : Apart x a)
    (hu : ¬ a <:+: u) (h : FirstSplit v a m q) :
    FirstSplit (u ++ x ++ v) a (u ++ x ++ m) q := by
  refine ⟨by simp [h.1], ?_⟩
  intro p' q' h'
  rcases split_of_Apart hx h' with ⟨m', h1, -⟩ | ⟨m', h1, h2⟩
  · exact absurd ⟨p', m', h1.symm⟩ hu
  · have := h.2 m' q' h2
    rw [h1]; simp only [List.length_append]; omega

theorem Apart_of_disjoint {x a : GoString} (hxa : ∀ c ∈ x, c ∉ a) (hx : x ≠ []) (ha : a ≠ []) :
    Apart x a := by
  have key : ∀ (c e : GoString), c ≠ [] → e ≠ [] → c <:+ x → e <:+ a →
      ¬ c <+: e ∧ ¬ e <+: c := by
    intro c e hc he hcx hea
    obtain ⟨c0, cs, rfl⟩ := List.exists_cons_of_ne_nil hc
    obtain ⟨e0, es, rfl⟩ := List.exists_cons_of_ne_nil he
    have hc0 : c0 ∈ x := hcx.subset (List.mem_cons_self _ _)
    have he0 : e0 ∈ a := hea.subset (List.mem_cons_self _ _)
    constructor
    · intro hpre
      rw [List.cons_prefix_cons] at hpre
      exact hxa c0 hc0 (hpre.1 ▸ he0)
    · intro hpre
      rw [List.cons_prefix_cons] at hpre
      exact hxa c0 hc0 (hpre.1 ▸ he0)
  constructor
  · intro c hc hcn
    exact key c a hcn ha ((List.mem_tails c x).mp hc) (List.suffix_refl a)
  · intro e he hen
    have := key x e hx hen (List.suffix_refl x) ((List.mem_tails e a).mp he)
    exact ⟨this.2, this.1⟩

/-! ## `strconv.Itoa` -/

theorem digitChar_isDigit (d : Nat) (h : d < 10) : (digitChar d).isDigit = true := by
  interval_cases d <;> decide

theorem digitChar_value (d : Nat) (h : d < 10) : (digitChar d).toNat - 48 = d := by
  interval_cases d <;> decide

theorem decimalValue_concat (ds : GoString) (c : Char) :
    decimalValue (ds ++ [c]) = 10 * decimalValue ds + (c.toNat - 48) := by
  simp [decimalValue, List.foldl_append]

theorem formatBits_spec : ∀ (fuel u : Nat) (acc : GoString), u < fuel →
    ∃ ds, formatBits fuel u acc = ds ++ acc ∧ IsDecimalOf ds u := by
  intro fuel
  induction fuel with
  | zero => intro u acc h; omega
  | succ fuel ih =>
    intro u acc h
    by_cases hu : u < 10
    · refine ⟨[digitChar u], by simp [formatBits, hu], by simp, ?_, by simp, ?_⟩
      · intro c hc
        rw [List.mem_singleton] at hc
        exact hc ▸ digitChar_isDigit u hu
      · simpa [decimalValue] using digitChar_value u hu
    · have hlt : u / 10 < fuel := by omega
      obtain ⟨ds, hds, hne, hdig, hlead, hval⟩ := ih (u / 10) (digitChar (u % 10) :: acc) hlt
      refine ⟨ds ++ [digitChar (u % 10)], by simp [formatBits, hu, hds], by simp, ?_, ?_, ?_⟩
      · intro c hc
        rcases List.mem_append.mp hc with h1 | h1
        · exact hdig c h1
        · rw [List.mem_singleton] at h1
          exact h1 ▸ digitChar_isDigit _ (Nat.mod_lt _ (by decide))
      · intro _ hhead
        obtain ⟨d0, rest, rfl⟩ := List.exists_cons_of_ne_nil hne
        simp only [List.cons_append, List.head?_cons, Option.some.injEq] at hhead
        subst hhead
        cases rest with
        | nil =>
          have : decimalValue ['0'] = 0 := by decide
          rw [this] at hval
          omega
        | cons r rs => exact hlead (by simp) rfl
      · rw [decimalValue_concat, hval, digitChar_value _ (Nat.mod_lt _ (by decide))]
        omega

theorem formatUint_spec (u : Nat) : IsDecimalOf (formatUint u) u := by
  obtain ⟨ds, hds, h⟩ := formatBits_spec (u + 1) u [] (Nat.lt_succ_self u)
  simpa [formatUint, hds] using h

theorem Itoa_spec (y : Int) : IsDecimalOfInt (Itoa y) y := by
  unfold Itoa IsDecimalOfInt
  by_cases h : y < 0
  · simp only [h, if_true]
    exact Or.inr ⟨trivial, _, rfl, formatUint_spec _⟩
  · simp only [h, if_false]
    exact Or.inl ⟨by omega, formatUint_spec _⟩

theorem Itoa_ne_nil (y : Int) : Itoa y ≠ [] := by
  rcases Itoa_spec y with ⟨-, hne, -⟩ | ⟨-, ds, hs, -⟩
  · exact hne
  · simp [hs]

theorem Itoa_chars (y : Int) : ∀ c ∈ Itoa y, c = '-' ∨ c.isDigit = true := by
  intro c hc
  rcases Itoa_spec y with ⟨-, -, hdig, -⟩ | ⟨-, ds, hs, -, hdig, -⟩
  · exact Or.inr (hdig c hc)
  · rw [hs, List.mem_cons] at hc
    rcases hc with h | h
    · exact Or.inl h
    · exact Or.inr (hdig c h)

theorem Itoa_no_angle (y : Int) : '<' ∉ Itoa y ∧ '>' ∉ Itoa y := by
  constructor <;> intro h <;> rcases Itoa_chars y _ h with h' | h' <;> revert h' <;> decide

theorem Apart_year_author : Apart yearToken authorToken := by
  unfold Apart; decide

theorem Apart_Itoa_author (y : Int) : Apart (Itoa y) authorToken := by
  apply Apart_of_disjoint _ (Itoa_ne_nil y) (by decide)
  intro c hc hmem
  have hall : ∀ c ∈ authorToken, ¬ (c = '-' ∨ c.isDigit = true) := by decide
  exact hall c hmem (Itoa_chars y c hc)

/-! ## Rendering -/

theorem yearToken_ne_nil : yearToken ≠ [] := by decide

theorem authorToken_ne_nil : authorToken ≠ [] := by decide

/-- The two substitutions of `generate`, for any year text `d` that cannot overlap
an author placeholder. -/
theorem Rendered_of_Replace (t d a : GoString) (hd : Apart d authorToken) :
    Rendered t d a (Replace (Replace t yearToken d 1) authorToken a 1) := by
  by_cases hy : yearToken <:+: t
  · obtain ⟨u, v, hyf⟩ := exists_FirstSplit hy
    rw [Replace_of_FirstSplit d yearToken_ne_nil hyf]
    by_cases hau : authorToken <:+: u
    · -- the author placeholder stands before the year placeholder
      obtain ⟨p, m, haf⟩ := exists_FirstSplit hau
      rw [Replace_of_FirstSplit a authorToken_ne_nil (FirstSplit_left_of_Apart hd haf)]
      have h1 : FirstSplit t authorToken p (m ++ yearToken ++ v) := by
        rw [hyf.1]; exact FirstSplit_left_of_Apart Apart_year_author haf
      have h2 : FirstSplit t yearToken (p ++ authorToken ++ m) v := by
        rw [← haf.1]; exact hyf
      have := Rendered.authorFirst (d := d) (a := a) p m v h1 h2
      simpa using this
    · by_cases hav : authorToken <:+: v
      · -- the author placeholder stands behind the year placeholder
        obtain ⟨m, q, haf⟩ := exists_FirstSplit hav
        rw [Replace_of_FirstSplit a authorToken_ne_nil (FirstSplit_right_of_Apart hd hau haf)]
        have h1 : FirstSplit t yearToken u (m ++ authorToken ++ q) := by
          rw [← haf.1]; exact hyf
        have h2 : FirstSplit t authorToken (u ++ yearToken ++ m) q := by
          rw [hyf.1]; exact FirstSplit_right_of_Apart Apart_year_author hau haf
        exact Rendered.yearFirst u m q h1 h2
      · rw [Replace_of_absent a authorToken_ne_nil (not_infix_of_Apart hd hau hav)]
        have h1 : ¬ authorToken <:+: t := by
          rw [hyf.1]; exact not_infix_of_Apart Apart_year_author hau hav
        exact Rendered.yearOnly u v hyf h1
  · rw [Replace_of_absent d yearToken_ne_nil hy]
    by_cases ha : authorToken <:+: t
    · obtain ⟨u, v, haf⟩ := exists_FirstSplit ha
      rw [Replace_of_FirstSplit a authorToken_ne_nil haf]
      exact Rendered.authorOnly u v hy haf
    · rw [Replace_of_absent a authorToken_ne_nil ha]
      exact Rendered.neither hy ha

theorem infix_of_FirstSplit {s sub u v : GoString} (h : FirstSplit s sub u v) : sub <:+: s :=
  ⟨u, v, h.1.symm⟩

/-- The relation `Rendered` fixes the rendered text. -/
theorem Rendered_unique {t d a r r' : GoString} (h : Rendered t d a r)
    (h' : Rendered t d a r') : r = r' := by
  cases h with
  | neither hy ha =>
    cases h' with
    | neither _ _ => rfl
    | yearOnly u v hy' _ => exact absurd (infix_of_FirstSplit hy') hy
    | authorOnly u v _ ha' => exact absurd (infix_of_FirstSplit ha') ha
    | yearFirst u m v hy' _ => exact absurd (infix_of_FirstSplit hy') hy
    | authorFirst u m v ha' _ => exact absurd (infix_of_FirstSplit ha') ha
  | yearOnly u v hy ha =>
    cases h' with
    | neither hy' _ => exact absurd (infix_of_FirstSplit hy) hy'
    | yearOnly u' v' hy' _ =>
      obtain ⟨rfl, rfl⟩ := FirstSplit_unique hy hy'
      rfl
    | authorOnly u' v' hy' _ => exact absurd (infix_of_FirstSplit hy) hy'
    | yearFirst u' m' v' _ ha' => exact absurd (infix_of_FirstSplit ha') ha
    | authorFirst u' m' v' ha' _ => exact absurd (infix_of_FirstSplit ha') ha
  | authorOnly u v hy ha =>
    cases h' with
    | neither _ ha' => exact absurd (infix_of_FirstSplit ha) ha'
    | yearOnly u' v' hy' _ => exact absurd (infix_of_FirstSplit hy') hy
    | authorOnly u' v' _ ha' =>
      obtain ⟨rfl, rfl⟩ := FirstSplit_unique ha ha'
      rfl
    | yearFirst u' m' v' hy' _ => exact absurd (infix_of_FirstSplit hy') hy
    | authorFirst u' m' v' _ hy' => exact absurd (infix_of_FirstSplit hy') hy
  | yearFirst u m v hy ha =>
    cases h' with
    | neither hy' _ => exact absurd (infix_of_FirstSplit hy) hy'
    | yearOnly u' v' _ ha' => exact absurd (infix_of_FirstSplit ha) ha'
    | authorOnly u' v' hy' _ => exact absurd (infix_of_FirstSplit hy) hy'
    | yearFirst u' m' v' hy' ha' =>
      obtain ⟨rfl, -⟩ := FirstSplit_unique hy hy'
      obtain ⟨h1, rfl⟩ := FirstSplit_unique ha ha'
      rw [List.append_cancel_left h1]
    | authorFirst u' m' v' ha' hy' =>
      have h1 := congrArg List.length (FirstSplit_unique hy hy').1
      have h2 := congrArg List.length (FirstSplit_unique ha ha').1
      have e1 : yearToken.length = 6 := rfl
      have e2 : authorToken.length = 8 := rfl
      simp only [List.length_append, e1, e2] at h1 h2
      omega
  | authorFirst u m v ha hy =>
    cases h' with
    | neither hy' _ => exact absurd (infix_of_FirstSplit hy) hy'
    | yearOnly u' v' _ ha' => exact absurd (infix_of_FirstSplit ha) ha'
    | authorOnly u' v' hy' _ => exact absurd (infix_of_FirstSplit hy) hy'
    | yearFirst u' m' v' hy' ha' =>
      have h1 := congrArg List.length (FirstSplit_unique hy hy').1
      have h2 := congrArg List.length (FirstSplit_unique ha ha').1
      have e1 : yearToken.length = 6 := rfl
      have e2 : authorToken.length = 8 := rfl
      simp only [List.length_append, e1, e2] at h1 h2
      omega
    | authorFirst u' m' v' ha' hy' =>
      obtain ⟨rfl, -⟩ := FirstSplit_unique ha ha'
      obtain ⟨h1, rfl⟩ := FirstSplit_unique hy hy'
      rw [List.append_cancel_left h1]

/-- C1: for every template `t`, author `a` and year `y`, the text `generate` renders
is `t` with the first `<YEAR>` replaced by the unpadded decimal form of `y` (with a
leading `-` when `y` is negative) and the first `<AUTHOR>` replaced by `a` as it is,
every other character in place and in order; a placeholder that does not occur in
`t` changes nothing. The description fits no other text. -/
theorem render_spec (t a : GoString) (y : Int) :
    IsDecimalOfInt (Itoa y) y ∧ Rendered t (Itoa y) a (render t a y) ∧
    ∀ r, Rendered t (Itoa y) a r → r = render t a y :=
  ⟨Itoa_spec y, Rendered_of_Replace t (Itoa y) a (Apart_Itoa_author y),
    fun _ hr => Rendered_unique hr (Rendered_of_Replace t (Itoa y) a (Apart_Itoa_author y))⟩

/-! ## Sequential and simultaneous substitution -/

theorem firstOccurrence_eq_Index (s sub : GoString) : firstOccurrence s sub = Index s sub := by
  unfold firstOccurrence
  induction s with
  | nil => simp [Index]
  | cons c s ih =>
    rw [Index_cons, List.tails, List.findIdx?_cons, List.findIdx?_succ, ih]
    by_cases h : sub <+: c :: s <;> simp [h]

theorem countOccurrences_cons (c : Char) (s sub : GoString) :
    countOccurrences (c :: s) sub =
      (if sub <+: c :: s then 1 else 0) + countOccurrences s sub := by
  unfold countOccurrences
  by_cases h : sub <+: c :: s
  · have hb : sub.isPrefixOf (c :: s) = true := by simpa using h
    simp only [List.tails, List.filter_cons, hb, if_true, List.length_cons, h]
    omega
  · have hb : sub.isPrefixOf (c :: s) = false := by
      rw [← Bool.not_eq_true, List.isPrefixOf_iff_prefix]; exact h
    rw [if_neg h]
    simp only [List.tails, List.filter_cons, hb, Nat.zero_add]
    rfl

theorem countOccurrences_nil {sub : GoString} (h : sub ≠ []) : countOccurrences [] sub = 0 := by
  obtain ⟨c, cs, rfl⟩ := List.exists_cons_of_ne_nil h
  rfl

theorem countOccurrences_skip {x a : GoString} (hx : Apart x a) (v : GoString) :
    ∀ c, c <:+ x → countOccurrences (c ++ v) a = countOccurrences v a := by
  intro c
  induction c with
  | nil => intro _; rfl
  | cons h c ih =>
    intro hsuf
    have hno : ¬ a <+: (h :: c) ++ v := by
      intro hpre
      have hcmp : h :: c <+: a ∨ a <+: h :: c :=
        List.prefix_or_prefix_of_prefix (List.prefix_append _ _) hpre
      have := hx.1 (h :: c) ((List.mem_tails _ _).mpr hsuf) (by simp)
      tauto
    have hsuf' : c <:+ x := (List.suffix_cons h c).trans hsuf
    rw [List.cons_append] at hno ⊢
    rw [countOccurrences_cons, if_neg hno, ih hsuf', Nat.zero_add]

/-- Where `x` and `a` cannot overlap, the occurrences of `a` in `u ++ x ++ v` are
those in `u` and those in `v`. -/
theorem countOccurrences_of_Apart {x a : GoString} (hx : Apart x a) (ha : a ≠ [])
    (u v : GoString) :
    countOccurrences (u ++ x ++ v) a = countOccurrences u a + countOccurrences v a := by
  induction u with
  | nil =>
    rw [List.nil_append, countOccurrences_skip hx v x (List.suffix_refl x),
      countOccurrences_nil ha, Nat.zero_add]
  | cons h u ih =>
    have hiff : a <+: h :: (u ++ x ++ v) ↔ a <+: h :: u := by
      constructor
      · rintro ⟨q, hq⟩
        have hq' : (h :: u) ++ x ++ v = [] ++ a ++ q := by simpa using hq.symm
        rcases split_of_Apart hx hq' with ⟨m, h1, -⟩ | ⟨m, h1, -⟩
        · exact ⟨m, by simpa using h1.symm⟩
        · simp at h1
      · intro hp
        exact hp.trans ⟨x ++ v, by simp⟩
    simp only [List.cons_append]
    rw [countOccurrences_cons, countOccurrences_cons, ih]
    by_cases hp : a <+: h :: u
    · rw [if_pos hp, if_pos (hiff.mpr hp)]; omega
    · rw [if_neg hp, if_neg (fun h' => hp (hiff.mp h'))]; omega

theorem countOccurrences_Replace_year (t : GoString) (y : Int) :
    countOccurrences (Replace t yearToken (Itoa y) 1) authorToken =
      countOccurrences t authorToken := by
  by_cases hy : yearToken <:+: t
  · obtain ⟨u, v, hyf⟩ := exists_FirstSplit hy
    rw [Replace_of_FirstSplit _ yearToken_ne_nil hyf,
      countOccurrences_of_Apart (Apart_Itoa_author y) authorToken_ne_nil]
    conv_rhs => rw [hyf.1, countOccurrences_of_Apart Apart_year_author authorToken_ne_nil]
  · rw [Replace_of_absent _ yearToken_ne_nil hy]

theorem substituteBoth_of_Rendered {t d a r : GoString} (h : Rendered t d a r) :
    substituteBoth t d a = r := by
  unfold substituteBoth
  simp only [firstOccurrence_eq_Index]
  cases h with
  | neither hy ha =>
    rw [(Index_eq_none_iff _ _).mpr hy, (Index_eq_none_iff _ _).mpr ha]
  | yearOnly u v hy ha =>
    rw [Index_of_FirstSplit hy, (Index_eq_none_iff _ _).mpr ha]
    obtain ⟨h1, h2⟩ := take_drop_of_split hy.1
    simp only [h1, h2]
  | authorOnly u v hy ha =>
    rw [(Index_eq_none_iff _ _).mpr hy, Index_of_FirstSplit ha]
    obtain ⟨h1, h2⟩ := take_drop_of_split ha.1
    simp only [h1, h2]
  | yearFirst u m v hy ha =>
    rw [Index_of_FirstSplit hy, Index_of_FirstSplit ha]
    obtain ⟨h1, h2⟩ := take_drop_of_split hy.1
    obtain ⟨-, h4⟩ := take_drop_of_split ha.1
    have hlt : u.length < (u ++ yearToken ++ m).length := by
      simp [yearToken]
    have hsub : (u ++ yearToken ++ m).length - (u.length + yearToken.length) = m.length := by
      simp only [List.length_append]; omega
    simp only [hlt, if_true, h1, h2, h4, hsub]
    rw [List.append_assoc m, List.take_left]
  | authorFirst u m v ha hy =>
    rw [Index_of_FirstSplit hy, Index_of_FirstSplit ha]
    obtain ⟨h1, h2⟩ := take_drop_of_split ha.1
    obtain ⟨-, h4⟩ := take_drop_of_split hy.1
    have hlt : ¬ (u ++ authorToken ++ m).length < u.length := by
      simp only [List.length_append]; omega
    have hsub : (u ++ authorToken ++ m).length - (u.length + authorToken.length) = m.length := by
      simp only [List.length_append]; omega
    simp only [hlt, if_false, h1, h2, h4, hsub]
    rw [List.append_assoc m, List.take_left]

/-- C10: replacing the year first and the author second, as `generate` does, gives
the simultaneous substitution on the template itself, for every template, year and
author, also for an author that holds `<YEAR>` or `<AUTHOR>`: the result is `t` with
its own first `<YEAR>` and its own first `<AUTHOR>` replaced, and putting in the
year digits leaves the number of `<AUTHOR>` occurrences as it was. -/
theorem render_eq_substituteBoth (t a : GoString) (y : Int) :
    render t a y = substituteBoth t (Itoa y) a ∧
    countOccurrences (Replace t yearToken (Itoa y) 1) authorToken =
      countOccurrences t authorToken :=
  ⟨(substituteBoth_of_Rendered (Rendered_of_Replace t (Itoa y) a (Apart_Itoa_author y))).symm,
    countOccurrences_Replace_year t y⟩

/-! ## What the rendered text contains -/

/-- A token that starts with `h` and ends with `l` and occurs in `L ++ a ++ R`
occurs in `a`, when `h` is not in `L` and `l` is not in `R`. -/
theorem infix_of_guarded {tok L a R : GoString} {h l : Char}
    (hh : ∃ tl, tok = h :: tl) (hl : ∀ e ∈ tok.tails, e ≠ [] → l ∈ e)
    (hL : h ∉ L) (hR : l ∉ R) (hin : tok <:+: L ++ a ++ R) : tok <:+: a := by
  obtain ⟨tl, htok⟩ := hh
  have hlt : l ∈ tok := hl tok ((List.mem_tails _ _).mpr (List.suffix_refl _)) (by simp [htok])
  have inner : ∀ a' q, a ++ R = a' ++ (tok ++ q) → tok <:+: a := by
    intro a' q h1
    rw [List.append_eq_append_iff] at h1
    rcases h1 with ⟨b, -, hR'⟩ | ⟨c, hac, h2⟩
    · exact absurd (hR' ▸ List.mem_append_right b (List.mem_append_left q hlt)) hR
    · rw [List.append_eq_append_iff] at h2
      rcases h2 with ⟨b, hc, -⟩ | ⟨e, hte, hRe⟩
      · exact ⟨a', b, by simp [hac, hc]⟩
      · by_cases hen : e = []
        · subst hen
          rw [List.append_nil] at hte
          exact ⟨a', [], by simp [hac, hte]⟩
        · have hle : l ∈ e := hl e (mem_tails_of_append_eq hte) hen
          exact absurd (hRe ▸ List.mem_append_left q hle) hR
  obtain ⟨p, q, hpq⟩ := hin
  rw [List.append_assoc, List.append_assoc, List.append_eq_append_iff] at hpq
  rcases hpq with ⟨c', hL', h2⟩ | ⟨a', -, h2⟩
  · cases c' with
    | nil => exact inner [] q (by simpa using h2.symm)
    | cons c0 cs =>
      rw [htok] at h2
      simp only [List.cons_append, List.cons.injEq] at h2
      exact absurd (hL' ▸ List.mem_append_right p (h2.1 ▸ List.mem_cons_self _ _)) hL
  · exact inner a' q h2

theorem countOccurrences_pos_iff (s sub : GoString) :
    0 < countOccurrences s sub ↔ sub <:+: s := by
  induction s with
  | nil =>
    cases sub with
    | nil => simp [countOccurrences]
    | cons c cs => simp [countOccurrences_nil]
  | cons c s ih =>
    rw [countOccurrences_cons, List.infix_cons_iff]
    by_cases h : sub <+: c :: s
    · simp [h]
    · simp [h, ih]

theorem not_infix_before_first {s sub u v : GoString} (h : FirstSplit s sub u v)
    (hsub : sub ≠ []) : ¬ sub <:+: u := by
  rintro ⟨p, q, hpq⟩
  have := h.2 p (q ++ sub ++ v) (by rw [h.1, ← hpq]; simp)
  have hl : 0 < sub.length := List.length_pos.mpr hsub
  rw [← hpq] at this
  simp only [List.length_append] at this
  omega

/-- Behind the first occurrence, the occurrences are those in the rest of the text. -/
theorem countOccurrences_of_FirstSplit {sub : GoString} (c : Char) (tl : GoString)
    (hsub : sub = c :: tl) :
    ∀ {s u v : GoString}, FirstSplit s sub u v →
      countOccurrences s sub = 1 + countOccurrences (tl ++ v) sub := by
  intro s u
  induction u generalizing s with
  | nil =>
    intro v h
    have hs : s = c :: (tl ++ v) := by rw [h.1, hsub]; simp
    rw [hs, countOccurrences_cons, if_pos ⟨v, by rw [hsub]; simp⟩]
  | cons a u ih =>
    intro v h
    have hs : s = a :: (u ++ sub ++ v) := by rw [h.1]; simp
    have hno : ¬ sub <+: a :: (u ++ sub ++ v) := by
      rintro ⟨w, hw⟩
      have := h.2 [] w (by rw [hs, ← hw]; simp)
      simp at this
    have hrest : FirstSplit (u ++ sub ++ v) sub u v := by
      refine ⟨rfl, ?_⟩
      intro u' v' h'
      have := h.2 (a :: u') v' (by rw [hs, h']; simp)
      simpa using this
    rw [hs, countOccurrences_cons, if_neg hno, Nat.zero_add, ih hrest]

theorem countOccurrences_eq_one_iff {s sub u v : GoString} (c : Char) (tl : GoString)
    (hsub : sub = c :: tl) (h : FirstSplit s sub u v) :
    countOccurrences s sub = 1 ↔ ¬ sub <:+: tl ++ v := by
  rw [countOccurrences_of_FirstSplit c tl hsub h, ← countOccurrences_pos_iff]
  omega

/-- An end of `u ++ w ++ m` that holds no character like the last one of `w` is an
end of `m`. -/
theorem suffix_cut (P : Char → Prop) {x u w m w' : GoString} {c : Char}
    (hx : x <:+ u ++ w ++ m) (hP : ∀ d ∈ x, P d) (hw : w = w' ++ [c]) (hc : ¬ P c) :
    x <:+ m := by
  obtain ⟨pre, hpre⟩ := hx
  have h : pre ++ x = (u ++ w') ++ (c :: m) := by rw [hpre, hw]; simp
  rw [List.append_eq_append_iff] at h
  rcases h with ⟨a', -, hx'⟩ | ⟨c', -, hm⟩
  · exact absurd (hP c (by rw [hx']; simp)) hc
  · cases c' with
    | nil =>
      simp only [List.nil_append] at hm
      exact absurd (hP c (by rw [← hm]; simp)) hc
    | cons c0 cs =>
      simp only [List.cons_append, List.cons.injEq] at hm
      exact ⟨cs, hm.2.symm⟩

/-- A beginning of `m ++ w ++ v` that holds no character like the first one of `w`
is a beginning of `m`. -/
theorem prefix_cut (P : Char → Prop) {z m w v w' : GoString} {c : Char}
    (hz : z <+: m ++ w ++ v) (hP : ∀ d ∈ z, P d) (hw : w = c :: w') (hc : ¬ P c) :
    z <+: m := by
  obtain ⟨post, hpost⟩ := hz
  have h : z ++ post = m ++ (c :: (w' ++ v)) := by rw [hpost, hw]; simp
  rw [List.append_eq_append_iff] at h
  rcases h with ⟨a', hm, -⟩ | ⟨c', hz', hrest⟩
  · exact ⟨a', hm.symm⟩
  · cases c' with
    | nil =>
      simp only [List.append_nil] at hz'
      exact hz' ▸ List.prefix_refl m
    | cons c0 cs =>
      simp only [List.cons_append, List.cons.injEq] at hrest
      exact absurd (hP c (by rw [hz', hrest.1]; simp)) hc

/-- Where a token occurs in `m ++ a ++ v`: in one of the three parts, or across the
start of `a` (then `m` ends with a beginning of the token), or across the end of
`a` (then `v` starts with an end of the token). -/
theorem infix_append_three {tok m a v : GoString} (h : tok <:+: m ++ a ++ v) :
    tok <:+: m ∨ tok <:+: a ∨ tok <:+: v ∨
    (∃ x, x ≠ [] ∧ x <:+ m ∧ x <+: tok ∧ x ≠ tok) ∨
    (∃ z, z ≠ [] ∧ z <+: v ∧ z <:+ tok ∧ z ≠ tok) := by
  have inner : ∀ a' post, a ++ v = a' ++ (tok ++ post) →
      tok <:+: a ∨ tok <:+: v ∨ (∃ z, z ≠ [] ∧ z <+: v ∧ z <:+ tok ∧ z ≠ tok) := by
    intro a' post h1
    rw [List.append_eq_append_iff] at h1
    rcases h1 with ⟨b, -, hv⟩ | ⟨c, hac, h2⟩
    · exact Or.inr (Or.inl ⟨b, post, by simp [hv]⟩)
    · rw [List.append_eq_append_iff] at h2
      rcases h2 with ⟨b, hc, -⟩ | ⟨e, hte, hve⟩
      · exact Or.inl ⟨a', b, by simp [hac, hc]⟩
      · by_cases hen : e = []
        · subst hen
          rw [List.append_nil] at hte
          exact Or.inl ⟨a', [], by simp [hac, hte]⟩
        · by_cases hcn : c = []
          · subst hcn
            rw [List.nil_append] at hte
            exact Or.inr (Or.inl ⟨[], post, by simp [hve, hte]⟩)
          · refine Or.inr (Or.inr ⟨e, hen, ⟨post, hve.symm⟩, ⟨c, hte.symm⟩, ?_⟩)
            intro heq
            have := congrArg List.length hte
            rw [heq] at this
            simp only [List.length_append] at this
            have : 0 < c.length := List.length_pos.mpr hcn
            omega
  obtain ⟨pre, post, hpp⟩ := h
  rw [List.append_assoc, List.append_assoc, List.append_eq_append_iff] at hpp
  rcases hpp with ⟨c', hm, h2⟩ | ⟨a', -, h2⟩
  · by_cases hcn : c' = []
    · subst hcn
      rcases inner [] post (by simpa using h2.symm) with h' | h' | h'
      · exact Or.inr (Or.inl h')
      · exact Or.inr (Or.inr (Or.inl h'))
      · exact Or.inr (Or.inr (Or.inr (Or.inr h')))
    · rw [List.append_eq_append_iff] at h2
      rcases h2 with ⟨b, hc, -⟩ | ⟨e, hte, -⟩
      · exact Or.inl ⟨pre, b, by simp [hm, hc]⟩
      · by_cases hen : e = []
        · subst hen
          rw [List.append_nil] at hte
          exact Or.inl ⟨pre, [], by simp [hm, hte]⟩
        · refine Or.inr (Or.inr (Or.inr (Or.inl ⟨c', hcn, ⟨pre, hm.symm⟩, ⟨e, hte.symm⟩, ?_⟩)))
          intro heq
          have := congrArg List.length hte
          rw [heq] at this
          simp only [List.length_append] at this
          have : 0 < e.length := List.length_pos.mpr hen
          omega
  · rcases inner a' post h2 with h' | h' | h'
    · exact Or.inr (Or.inl h')
    · exact Or.inr (Or.inr (Or.inl h'))
    · exact Or.inr (Or.inr (Or.inr (Or.inr h')))

theorem NoToken_iff (s : GoString) :
    NoToken s ↔ ¬ yearToken <:+: s ∧ ¬ authorToken <:+: s := by
  simp [NoToken, tokens]

theorem NoToken_of_part {s s' : GoString} (h : NoToken s) (hs : s' <:+: s) : NoToken s' :=
  fun tok htok hin => h tok htok (hin.trans hs)

/-- The shape of a placeholder: it starts with `<`, ends with `>`, and has neither
character, a digit or a minus sign anywhere else. -/
theorem token_facts : ∀ tok ∈ tokens,
    (∃ tl, tok = '<' :: tl) ∧ (∃ ini, tok = ini ++ ['>']) ∧
    (∀ e ∈ tok.tails, e ≠ [] → '>' ∈ e) ∧
    (∀ e ∈ tok.tails, e ≠ tok → '<' ∉ e) ∧
    (∀ x ∈ tok.inits, x ≠ tok → '>' ∉ x) ∧
    (∀ c ∈ tok, ¬ (c = '-' ∨ c.isDigit = true)) := by
  intro tok htok
  simp only [tokens, List.mem_cons, List.mem_singleton, List.not_mem_nil, or_false] at htok
  rcases htok with rfl | rfl
  · exact ⟨⟨"YEAR>".toList, rfl⟩, ⟨"<YEAR".toList, rfl⟩, by decide, by decide, by decide,
      by decide⟩
  · exact ⟨⟨"AUTHOR>".toList, rfl⟩, ⟨"<AUTHOR".toList, rfl⟩, by decide, by decide, by decide,
      by decide⟩

theorem token_ne_nil {tok : GoString} (htok : tok ∈ tokens) : tok ≠ [] := by
  obtain ⟨⟨tl, h⟩, -⟩ := token_facts tok htok
  simp [h]

theorem Apart_Itoa_token (y : Int) {tok : GoString} (htok : tok ∈ tokens) :
    Apart (Itoa y) tok := by
  apply Apart_of_disjoint _ (Itoa_ne_nil y) (token_ne_nil htok)
  intro c hc hmem
  exact (token_facts tok htok).2.2.2.2.2 c hmem (Itoa_chars y c hc)

theorem Apart_author_year : Apart authorToken yearToken := by
  unfold Apart; decide

/-- Behind the first character of a placeholder, an occurrence of the placeholder
lies behind the rest of it. -/
theorem infix_behind_tail {tok tl w : GoString} (htok : tok ∈ tokens) (htl : tok = '<' :: tl)
    (h : tok <:+: tl ++ w) : tok <:+: w := by
  obtain ⟨-, -, hlast, hopen, -, -⟩ := token_facts tok htok
  have htl' : '<' ∉ tl := by
    apply hopen tl
    · rw [List.mem_tails, htl]; exact List.suffix_cons _ _
    · intro heq
      have := congrArg List.length heq
      rw [htl] at this
      simp at this
  exact infix_of_guarded ⟨tl, htl⟩ hlast htl' (List.not_mem_nil _) (by simpa using h)

theorem NoToken_block_iff {w u m : GoString} (hw : ∀ tok ∈ tokens, Apart w tok) :
    NoToken (u ++ w ++ m) ↔ NoToken u ∧ NoToken m := by
  constructor
  · intro h
    exact ⟨NoToken_of_part h ⟨[], w ++ m, by simp⟩, NoToken_of_part h ⟨u ++ w, [], by simp⟩⟩
  · rintro ⟨hu, hm⟩ tok htok
    exact not_infix_of_Apart (hw tok htok) (hu tok htok) (hm tok htok)

theorem EndsOpen_block_iff {u w m : GoString} (w' : GoString) (c : Char) (hw : w = w' ++ [c])
    (hc : ∀ tok ∈ tokens, ∀ x ∈ tok.inits, x ≠ tok → c ∉ x) :
    EndsOpen (u ++ w ++ m) ↔ EndsOpen m := by
  constructor
  · rintro ⟨x, hx, hxn, tok, htok, hpre, hne⟩
    have hcx : c ∉ x := hc tok htok x ((List.mem_inits _ _).mpr hpre) hne
    have hsuf : x <:+ m :=
      suffix_cut (fun d => d ≠ c) ((List.mem_tails _ _).mp hx)
        (fun d hd heq => hcx (heq ▸ hd)) hw (fun h => h rfl)
    exact ⟨x, (List.mem_tails _ _).mpr hsuf, hxn, tok, htok, hpre, hne⟩
  · rintro ⟨x, hx, hxn, tok, htok, hpre, hne⟩
    have hsuf : x <:+ u ++ w ++ m := ((List.mem_tails _ _).mp hx).trans (List.suffix_append _ _)
    exact ⟨x, (List.mem_tails _ _).mpr hsuf, hxn, tok, htok, hpre, hne⟩

theorem StartsOpen_block_iff {m w v : GoString} (w' : GoString) (c : Char) (hw : w = c :: w')
    (hc : ∀ tok ∈ tokens, ∀ z ∈ tok.tails, z ≠ tok → c ∉ z) :
    StartsOpen (m ++ w ++ v) ↔ StartsOpen m := by
  constructor
  · rintro ⟨z, hz, hzn, tok, htok, hsuf, hne⟩
    have hcz : c ∉ z := hc tok htok z ((List.mem_tails _ _).mpr hsuf) hne
    have hpre : z <+: m :=
      prefix_cut (fun d => d ≠ c) ((List.mem_inits _ _).mp hz)
        (fun d hd heq => hcz (heq ▸ hd)) hw (fun h => h rfl)
    exact ⟨z, (List.mem_inits _ _).mpr hpre, hzn, tok, htok, hsuf, hne⟩
  · rintro ⟨z, hz, hzn, tok, htok, hsuf, hne⟩
    have hpre : z <+: m ++ w ++ v :=
      ((List.mem_inits _ _).mp hz).trans ⟨w ++ v, by simp⟩
    exact ⟨z, (List.mem_inits _ _).mpr hpre, hzn, tok, htok, hsuf, hne⟩

theorem Itoa_last (y : Int) : ∃ w' c, Itoa y = w' ++ [c] ∧ (c = '-' ∨ c.isDigit = true) := by
  rcases List.eq_nil_or_concat (Itoa y) with h | ⟨w', c, h⟩
  · exact absurd h (Itoa_ne_nil y)
  · refine ⟨w', c, by simpa using h, Itoa_chars y c ?_⟩
    rw [h]; simp

theorem Itoa_first (y : Int) : ∃ c w', Itoa y = c :: w' ∧ (c = '-' ∨ c.isDigit = true) := by
  obtain ⟨c, w', h⟩ := List.exists_cons_of_ne_nil (Itoa_ne_nil y)
  exact ⟨c, w', h, Itoa_chars y c (by rw [h]; simp)⟩

theorem EndsOpen_Itoa_iff (y : Int) (u m : GoString) :
    EndsOpen (u ++ Itoa y ++ m) ↔ EndsOpen m := by
  obtain ⟨w', c, hw, hc⟩ := Itoa_last y
  apply EndsOpen_block_iff w' c hw
  intro tok htok x hx _ hcx
  exact (token_facts tok htok).2.2.2.2.2 c (((List.mem_inits _ _).mp hx).subset hcx) hc

theorem StartsOpen_Itoa_iff (y : Int) (m v : GoString) :
    StartsOpen (m ++ Itoa y ++ v) ↔ StartsOpen m := by
  obtain ⟨c, w', hw, hc⟩ := Itoa_first y
  apply StartsOpen_block_iff w' c hw
  intro tok htok z hz _ hcz
  exact (token_facts tok htok).2.2.2.2.2 c (((List.mem_tails _ _).mp hz).subset hcz) hc

theorem EndsOpen_year_iff (u m : GoString) :
    EndsOpen (u ++ yearToken ++ m) ↔ EndsOpen m :=
  EndsOpen_block_iff "<YEAR".toList '>' rfl
    (fun tok htok => (token_facts tok htok).2.2.2.2.1)

theorem StartsOpen_year_iff (m v : GoString) :
    StartsOpen (m ++ yearToken ++ v) ↔ StartsOpen m :=
  StartsOpen_block_iff "YEAR>".toList '<' rfl
    (fun tok htok => (token_facts tok htok).2.2.2.1)

theorem NoToken_nil : NoToken [] := by
  intro tok htok h
  exact token_ne_nil htok (List.infix_nil.mp h)

theorem NoToken_of_not_mem {s : GoString} {c : Char} (hc : ∀ tok ∈ tokens, c ∈ tok)
    (hs : c ∉ s) : NoToken s :=
  fun tok htok h => hs (h.subset (hc tok htok))

/-- Around an inserted text `a`: no placeholder-free `a` leaves a placeholder in
`L ++ a ++ R` exactly when `L` and `R` hold none, `L` does not end with an opened
placeholder and `R` does not start with the rest of one. -/
theorem NoToken_around_iff (L R : GoString) :
    (∀ a, NoToken a → NoToken (L ++ a ++ R)) ↔
      NoToken L ∧ NoToken R ∧ ¬ EndsOpen L ∧ ¬ StartsOpen R := by
  have hlt : ∀ tok ∈ tokens, '<' ∈ tok := by
    intro tok htok
    obtain ⟨⟨tl, h⟩, -⟩ := token_facts tok htok
    simp [h]
  have hgt : ∀ tok ∈ tokens, '>' ∈ tok := by
    intro tok htok
    obtain ⟨-, ⟨ini, h⟩, -⟩ := token_facts tok htok
    simp [h]
  constructor
  · intro H
    have h0 := H [] NoToken_nil
    refine ⟨NoToken_of_part h0 ⟨[], R, by simp⟩, NoToken_of_part h0 ⟨L, [], by simp⟩, ?_, ?_⟩
    · rintro ⟨x, hx, hxn, tok, htok, ⟨rest, hrest⟩, hne⟩
      obtain ⟨L0, hL0⟩ := (List.mem_tails _ _).mp hx
      have hrne : rest ≠ tok := by
        intro heq
        have := congrArg List.length hrest
        rw [heq, List.length_append] at this
        have : 0 < x.length := List.length_pos.mpr hxn
        omega
      have hopen : '<' ∉ rest :=
        (token_facts tok htok).2.2.2.1 rest ((List.mem_tails _ _).mpr ⟨x, hrest⟩) hrne
      refine H rest (NoToken_of_not_mem hlt hopen) tok htok ⟨L0, R, ?_⟩
      rw [← hL0, ← hrest]; simp
    · rintro ⟨z, hz, hzn, tok, htok, ⟨front, hfront⟩, hne⟩
      obtain ⟨R0, hR0⟩ := (List.mem_inits _ _).mp hz
      have hfne : front ≠ tok := by
        intro heq
        have := congrArg List.length hfront
        rw [heq, List.length_append] at this
        have : 0 < z.length := List.length_pos.mpr hzn
        omega
      have hclose : '>' ∉ front :=
        (token_facts tok htok).2.2.2.2.1 front ((List.mem_inits _ _).mpr ⟨z, hfront⟩) hfne
      refine H front (NoToken_of_not_mem hgt hclose) tok htok ⟨L, R0, ?_⟩
      rw [← hR0, ← hfront]; simp
  · rintro ⟨hL, hR, hE, hS⟩ a ha tok htok h
    rcases infix_append_three h with h' | h' | h' | ⟨x, hxn, hx, hpre, hne⟩ |
      ⟨z, hzn, hz, hsuf, hne⟩
    · exact hL tok htok h'
    · exact ha tok htok h'
    · exact hR tok htok h'
    · exact hE ⟨x, (List.mem_tails _ _).mpr hx, hxn, tok, htok, hpre, hne⟩
    · exact hS ⟨z, (List.mem_inits _ _).mpr hz, hzn, tok, htok, hsuf, hne⟩

/-- A template with both placeholders has its first `<YEAR>` before its first
`<AUTHOR>`, or behind it. -/
theorem template_shape {t : GoString} (hy : yearToken <:+: t) (ha : authorToken <:+: t) :
    (∃ u m v, FirstSplit t yearToken u (m ++ authorToken ++ v) ∧
      FirstSplit t authorToken (u ++ yearToken ++ m) v) ∨
    (∃ u m v, FirstSplit t authorToken u (m ++ yearToken ++ v) ∧
      FirstSplit t yearToken (u ++ authorToken ++ m) v) := by
  have h := Rendered_of_Replace t (Itoa 0) [] (Apart_Itoa_author 0)
  generalize Replace (Replace t yearToken (Itoa 0) 1) authorToken [] 1 = r at h
  cases h with
  | neither hy' _ => exact absurd hy hy'
  | yearOnly u v _ ha' => exact absurd ha ha'
  | authorOnly u v hy' _ => exact absurd hy hy'
  | yearFirst u m v h1 h2 => exact Or.inl ⟨u, m, v, h1, h2⟩
  | authorFirst u m v h1 h2 => exact Or.inr ⟨u, m, v, h1, h2⟩

theorem render_yearFirst {t u m v : GoString}
    (h1 : FirstSplit t yearToken u (m ++ authorToken ++ v))
    (h2 : FirstSplit t authorToken (u ++ yearToken ++ m) v) (a : GoString) (y : Int) :
    render t a y = u ++ Itoa y ++ m ++ a ++ v :=
  Rendered_unique (Rendered_of_Replace t (Itoa y) a (Apart_Itoa_author y))
    (Rendered.yearFirst u m v h1 h2)

theorem render_authorFirst {t u m v : GoString}
    (h1 : FirstSplit t authorToken u (m ++ yearToken ++ v))
    (h2 : FirstSplit t yearToken (u ++ authorToken ++ m) v) (a : GoString) (y : Int) :
    render t a y = u ++ a ++ m ++ Itoa y ++ v :=
  Rendered_unique (Rendered_of_Replace t (Itoa y) a (Apart_Itoa_author y))
    (Rendered.authorFirst u m v h1 h2)

theorem Tidy_iff_of_FirstSplit {t p q : GoString} (h : FirstSplit t authorToken p q) :
    Tidy t ↔ countOccurrences t yearToken = 1 ∧ countOccurrences t authorToken = 1 ∧
      ¬ EndsOpen p ∧ ¬ StartsOpen q := by
  obtain ⟨h1, h2⟩ := take_drop_of_split h.1
  unfold Tidy
  rw [firstOccurrence_eq_Index, Index_of_FirstSplit h]
  simp only [Option.mem_def, Option.some.injEq, forall_eq', h1, h2]

/-- With the year placeholder first: each placeholder occurs once exactly when the
text between and the text behind hold none. -/
theorem counts_yearFirst {t u m v : GoString}
    (h1 : FirstSplit t yearToken u (m ++ authorToken ++ v))
    (h2 : FirstSplit t authorToken (u ++ yearToken ++ m) v) :
    (countOccurrences t yearToken = 1 ∧ countOccurrences t authorToken = 1) ↔
      NoToken u ∧ NoToken m ∧ NoToken v := by
  have hyt : yearToken ∈ tokens := by simp [tokens]
  have hat : authorToken ∈ tokens := by simp [tokens]
  have hbefore := not_infix_before_first h2 authorToken_ne_nil
  have hu : NoToken u := by
    rw [NoToken_iff]
    exact ⟨not_infix_before_first h1 yearToken_ne_nil,
      fun h => hbefore (h.trans ⟨[], yearToken ++ m, by simp⟩)⟩
  have hma : ¬ authorToken <:+: m := fun h => hbefore (h.trans ⟨u ++ yearToken, [], by simp⟩)
  rw [countOccurrences_eq_one_iff '<' "YEAR>".toList (by rfl : yearToken = _) h1,
    countOccurrences_eq_one_iff '<' "AUTHOR>".toList (by rfl : authorToken = _) h2]
  constructor
  · rintro ⟨cy, ca⟩
    refine ⟨hu, ?_, ?_⟩
    · rw [NoToken_iff]
      exact ⟨fun h => cy (h.trans ⟨"YEAR>".toList, authorToken ++ v, by simp⟩), hma⟩
    · rw [NoToken_iff]
      exact ⟨fun h => cy (h.trans ⟨"YEAR>".toList ++ m ++ authorToken, [], by simp⟩),
        fun h => ca (h.trans ⟨"AUTHOR>".toList, [], by simp⟩)⟩
  · rintro ⟨-, hm, hv⟩
    constructor
    · intro h
      exact not_infix_of_Apart Apart_author_year (hm _ hyt) (hv _ hyt)
        (infix_behind_tail hyt rfl h)
    · intro h
      exact hv _ hat (infix_behind_tail hat rfl h)

/-- With the author placeholder first: each placeholder occurs once exactly when the
text between and the text behind hold none. -/
theorem counts_authorFirst {t u m v : GoString}
    (h1 : FirstSplit t authorToken u (m ++ yearToken ++ v))
    (h2 : FirstSplit t yearToken (u ++ authorToken ++ m) v) :
    (countOccurrences t yearToken = 1 ∧ countOccurrences t authorToken = 1) ↔
      NoToken u ∧ NoToken m ∧ NoToken v := by
  have hyt : yearToken ∈ tokens := by simp [tokens]
  have hat : authorToken ∈ tokens := by simp [tokens]
  have hbefore := not_infix_before_first h2 yearToken_ne_nil
  have hu : NoToken u := by
    rw [NoToken_iff]
    exact ⟨fun h => hbefore (h.trans ⟨[], authorToken ++ m, by simp⟩),
      not_infix_before_first h1 authorToken_ne_nil⟩
  have hmy : ¬ yearToken <:+: m := fun h => hbefore (h.trans ⟨u ++ authorToken, [], by simp⟩)
  rw [countOccurrences_eq_one_iff '<' "YEAR>".toList (by rfl : yearToken = _) h2,
    countOccurrences_eq_one_iff '<' "AUTHOR>".toList (by rfl : authorToken = _) h1]
  constructor
  · rintro ⟨cy, ca⟩
    refine ⟨hu, ?_, ?_⟩
    · rw [NoToken_iff]
      exact ⟨hmy, fun h => ca (h.trans ⟨"AUTHOR>".toList, yearToken ++ v, by simp⟩)⟩
    · rw [NoToken_iff]
      exact ⟨fun h => cy (h.trans ⟨"YEAR>".toList, [], by simp⟩),
        fun h => ca (h.trans ⟨"AUTHOR>".toList ++ m ++ yearToken, [], by simp⟩)⟩
  · rintro ⟨-, hm, hv⟩
    constructor
    · intro h
      exact hv _ hyt (infix_behind_tail hyt rfl h)
    · intro h
      exact not_infix_of_Apart Apart_year_author (hm _ hat) (hv _ hat)
        (infix_behind_tail hat rfl h)

/-- C7, amended: for a template that holds both placeholders, the rendered text holds
the decimal year and the author text, whatever the year and the author; and the
rendered text holds no placeholder for every year and every author text without a
placeholder exactly when the template holds each placeholder once, the text before
its `<AUTHOR>` does not end with an opened placeholder and the text behind it does
not start with the rest of one. -/
theorem render_contains (t : GoString)
    (hy : yearToken <:+: t) (ha : authorToken <:+: t) :
    (∀ (a : GoString) (y : Int), Itoa y <:+: render t a y ∧ a <:+: render t a y) ∧
    ((∀ (a : GoString) (y : Int), ¬ yearToken <:+: a → ¬ authorToken <:+: a →
        ¬ yearToken <:+: render t a y ∧ ¬ authorToken <:+: render t a y) ↔ Tidy t) := by
  rcases template_shape hy ha with ⟨u, m, v, h1, h2⟩ | ⟨u, m, v, h1, h2⟩
  · have hr := render_yearFirst h1 h2
    refine ⟨fun a y => ?_, ?_⟩
    · rw [hr]
      exact ⟨⟨u, m ++ a ++ v, by simp⟩, ⟨u ++ Itoa y ++ m, v, by simp⟩⟩
    · have key : ∀ y : Int, (∀ a, NoToken a → NoToken (u ++ Itoa y ++ m ++ a ++ v)) ↔
          (NoToken u ∧ NoToken m ∧ NoToken v) ∧ ¬ EndsOpen m ∧ ¬ StartsOpen v := by
        intro y
        rw [NoToken_around_iff (u ++ Itoa y ++ m) v,
          NoToken_block_iff (fun tok htok => Apart_Itoa_token y htok), EndsOpen_Itoa_iff]
        tauto
      rw [Tidy_iff_of_FirstSplit h2, ← and_assoc, counts_yearFirst h1 h2, EndsOpen_year_iff]
      constructor
      · intro H
        refine (key 0).mp (fun a ha' => (NoToken_iff _).mpr ?_)
        have := H a 0 ((NoToken_iff a).mp ha').1 ((NoToken_iff a).mp ha').2
        rwa [hr] at this
      · intro C a y hya haa
        rw [hr]
        exact (NoToken_iff _).mp ((key y).mpr C a ((NoToken_iff a).mpr ⟨hya, haa⟩))
  · have hr : ∀ (a : GoString) (y : Int), render t a y = u ++ a ++ (m ++ Itoa y ++ v) := by
      intro a y
      rw [render_authorFirst h1 h2]; simp
    refine ⟨fun a y => ?_, ?_⟩
    · rw [hr]
      exact ⟨⟨u ++ a ++ m, v, by simp⟩, ⟨u, m ++ Itoa y ++ v, by simp⟩⟩
    · have key : ∀ y : Int, (∀ a, NoToken a → NoToken (u ++ a ++ (m ++ Itoa y ++ v))) ↔
          (NoToken u ∧ NoToken m ∧ NoToken v) ∧ ¬ EndsOpen u ∧ ¬ StartsOpen m := by
        intro y
        rw [NoToken_around_iff u (m ++ Itoa y ++ v),
          NoToken_block_iff (fun tok htok => Apart_Itoa_token y htok), StartsOpen_Itoa_iff]
        tauto
      rw [Tidy_iff_of_FirstSplit h1, ← and_assoc, counts_authorFirst h1 h2,
        StartsOpen_year_iff]
      constructor
      · intro H
        refine (key 0).mp (fun a ha' => (NoToken_iff _).mpr ?_)
        have := H a 0 ((NoToken_iff a).mp ha').1 ((NoToken_iff a).mp ha').2
        rwa [hr] at this
      · intro C a y hya haa
        rw [hr]
        exact (NoToken_iff _).mp ((key y).mpr C a ((NoToken_iff a).mpr ⟨hya, haa⟩))

theorem Tidy_fsfTemplate : Tidy fsfTemplate := by
  unfold Tidy EndsOpen StartsOpen
  decide

theorem render_contains_witness :
    Itoa 2024 <:+: render fsfTemplate "Jane Doe".toList 2024 ∧
    "Jane Doe".toList <:+: render fsfTemplate "Jane Doe".toList 2024 ∧
    ¬ yearToken <:+: render fsfTemplate "Jane Doe".toList 2024 ∧
    ¬ authorToken <:+: render fsfTemplate "Jane Doe".toList 2024 :=
  have h := render_contains fsfTemplate (by decide) (by decide)
  ⟨(h.1 "Jane Doe".toList 2024).1, (h.1 "Jane Doe".toList 2024).2,
    h.2.mpr Tidy_fsfTemplate "Jane Doe".toList 2024 (by decide) (by decide)⟩

/-- C7 as stated fails: the template below holds both placeholders and the author
text holds none, yet the rendered text still holds both placeholders and holds the
author text and the year text twice each. -/
theorem render_not_exactly_once :
    yearToken <:+: "2007 Jane, <YEAR> <AUTHOR>, <YEAR> <AUTHOR>".toList ∧
    authorToken <:+: "2007 Jane, <YEAR> <AUTHOR>, <YEAR> <AUTHOR>".toList ∧
    ¬ yearToken <:+: "Jane".toList ∧ ¬ authorToken <:+: "Jane".toList ∧
    render "2007 Jane, <YEAR> <AUTHOR>, <YEAR> <AUTHOR>".toList "Jane".toList 2007 =
      "2007 Jane, 2007 Jane, <YEAR> <AUTHOR>".toList ∧
    yearToken <:+:
      render "2007 Jane, <YEAR> <AUTHOR>, <YEAR> <AUTHOR>".toList "Jane".toList 2007 ∧
    authorToken <:+:
      render "2007 Jane, <YEAR> <AUTHOR>, <YEAR> <AUTHOR>".toList "Jane".toList 2007 ∧
    countOccurrences
      (render "2007 Jane, <YEAR> <AUTHOR>, <YEAR> <AUTHOR>".toList "Jane".toList 2007)
      "Jane".toList = 2 ∧
    countOccurrences
      (render "2007 Jane, <YEAR> <AUTHOR>, <YEAR> <AUTHOR>".toList "Jane".toList 2007)
      (Itoa 2007) = 2 := by
  refine ⟨by decide, by decide, by decide, by decide, by decide, by decide, by decide,
    by decide, by decide⟩

/-- One placeholder of each kind is not enough to leave no placeholder: text
around the author placeholder can close up to a new one. Here the text before
`<AUTHOR>` ends with the opened placeholder `<AUT`, so the template is not tidy. -/
theorem render_completes_token :
    countOccurrences "<YEAR> <AUT<AUTHOR>HOR>".toList yearToken = 1 ∧
    countOccurrences "<YEAR> <AUT<AUTHOR>HOR>".toList authorToken = 1 ∧
    EndsOpen "<YEAR> <AUT".toList ∧
    ¬ Tidy "<YEAR> <AUT<AUTHOR>HOR>".toList ∧
    render "<YEAR> <AUT<AUTHOR>HOR>".toList [] 2024 = "2024 <AUTHOR>".toList := by
  refine ⟨by decide, by decide, ?_, ?_, by decide⟩
  · unfold EndsOpen; decide
  · unfold Tidy EndsOpen StartsOpen; decide

/-! ## Author discovery -/

theorem gitconfig_eq_nil_iff (sh : Shell) (scope : GoString) :
    gitconfig sh scope = [] ↔ (sh (queryArgs scope)).2.isSome ∨ (sh (queryArgs scope)).1 = [] := by
  unfold gitconfig
  rcases h : sh (queryArgs scope) with ⟨buf, _ | e⟩ <;> simp

/-- C5: `defaultAuthor` panics with "could not detect username" exactly when the
query at each of the scopes local, global and system fails or prints nothing
(`gitconfig` turns a failed query into the empty string); in every other case it
returns a value. -/
theorem defaultAuthor_fatal_iff (sh : Shell) :
    (defaultAuthor sh = .error "could not detect username".toList ↔
      ∀ scope ∈ ["local".toList, "global".toList, "system".toList],
        (sh (queryArgs scope)).2.isSome ∨ (sh (queryArgs scope)).1 = []) ∧
    ((¬ ∀ scope ∈ ["local".toList, "global".toList, "system".toList],
        (sh (queryArgs scope)).2.isSome ∨ (sh (queryArgs scope)).1 = []) →
      ∃ v, defaultAuthor sh = .ok v) := by
  simp only [List.forall_mem_cons, List.not_mem_nil, false_imp_iff, implies_true, and_true,
    ← gitconfig_eq_nil_iff]
  unfold defaultAuthor
  generalize gitconfig sh "local".toList = a
  generalize gitconfig sh "global".toList = b
  generalize gitconfig sh "system".toList = c
  by_cases h1 : a = [] <;> by_cases h2 : b = [] <;> by_cases h3 : c = [] <;>
    simp [h1, h2, h3]

/-- C4, evaluated where it fails: when the local query prints an empty line and
the other scopes fail, `defaultAuthor` returns the empty string instead of
panicking. -/
theorem defaultAuthor_returns_empty :
    gitconfig onlyBlankShell "local".toList = "\n".toList ∧
    gitconfig onlyBlankShell "global".toList = [] ∧
    gitconfig onlyBlankShell "system".toList = [] ∧
    defaultAuthor onlyBlankShell = .ok [] := by
  refine ⟨rfl, rfl, rfl, rfl⟩

/-- C3, evaluated where it fails: the local output is white space only, the
global output is a name after trimming, and `defaultAuthor` returns the empty
string, not the name of the global scope. -/
theorem defaultAuthor_keeps_blank_scope :
    TrimSpace (gitconfig blankLocalShell "local".toList) = [] ∧
    TrimSpace (gitconfig blankLocalShell "global".toList) = "Jane Doe".toList ∧
    defaultAuthor blankLocalShell = .ok [] := by
  refine ⟨by decide, by decide, rfl⟩

/-! ## The command table -/

/-- C9: `main` builds exactly 11 subcommands, one per row of `licenses` and in its
order, named agpl, apache, bsd2, bsd3, eclipse, gpl, lgpl, lgpl2, mit, mpl,
unlicense; the names are pairwise distinct; and the action of the command invoked
for a name calls `generate` with that name as the license. -/
theorem commands_table :
    commands.length = 11 ∧
    commands.map (fun c => c.Name) = licenses.map (fun l => l.Alias) ∧
    commands.map (fun c => c.Name) =
      ["agpl".toList, "apache".toList, "bsd2".toList, "bsd3".toList, "eclipse".toList,
        "gpl".toList, "lgpl".toList, "lgpl2".toList, "mit".toList, "mpl".toList,
        "unlicense".toList] ∧
    (commands.map (fun c => c.Name)).Nodup ∧
    (∀ (box : Box) (os : OS) (author : GoString) (year : Int) (output : GoString)
      (c : Command),
      action box os author year output c = generate box os c.Name author year output) ∧
    (∀ (box : Box) (os : OS) (author : GoString) (year : Int) (output : GoString),
      ∀ c ∈ commands,
        dispatch box os author year output c.Name =
          some (generate box os c.Name author year output)) := by
  refine ⟨by decide, by decide, by decide, by decide, fun _ _ _ _ _ _ => rfl, ?_⟩
  intro box os author year output c hc
  have hall : ∀ c ∈ commands, commands.find? (fun d => decide (d.Name = c.Name)) = some c := by
    decide
  simp [dispatch, hall c hc, action]

/-! ## The file writer -/

/-- C2: when an entry, file or directory, exists at the resolved path, `generate`
leaves the whole state as it was, asks the template box for nothing, logs the
notice and returns. -/
theorem generate_no_overwrite (box : Box) (os : OS) (license name : GoString) (year : Int)
    (output : GoString) (path : Path) (e : Entry)
    (hpath : resolve os.wd output = .ok path) (hentry : Stat os path = .ok e) :
    (generate box os license name year output).os = os ∧
    (generate box os license name year output).loaded = [] ∧
    (generate box os license name year output).log = ["LICENSE file already exists.".toList] ∧
    (generate box os license name year output).exit = .returned := by
  simp [generate, hpath, isExists, hentry, IsNotExist]

theorem generate_no_overwrite_witness :
    (generate sampleBox occupiedProject "mit".toList "Jane Doe".toList 2024
        "./LICENSE".toList).os = occupiedProject ∧
    (generate sampleBox occupiedProject "mit".toList "Jane Doe".toList 2024
        "./LICENSE".toList).loaded = [] ∧
    (generate sampleBox occupiedProject "mit".toList "Jane Doe".toList 2024
        "./LICENSE".toList).log = ["LICENSE file already exists.".toList] ∧
    (generate sampleBox occupiedProject "mit".toList "Jane Doe".toList 2024
        "./LICENSE".toList).exit = .returned :=
  generate_no_overwrite sampleBox occupiedProject "mit".toList "Jane Doe".toList 2024
    "./LICENSE".toList (projDir ++ ["LICENSE".toList]) (.file "my own terms".toList) rfl rfl

/-- C6, evaluated where it fails: with output `../subdir/LICENSE` and no directory
`subdir`, nothing exists at the resolved path and `ioutil.WriteFile` fails with
ENOENT; `generate` drops that error: it logs nothing and returns, the state
unchanged. -/
theorem generate_drops_write_error :
    resolve emptyProject.wd "../subdir/LICENSE".toList =
      .ok ["home".toList, "u".toList, "subdir".toList, "LICENSE".toList] ∧
    Stat emptyProject ["home".toList, "u".toList, "subdir".toList, "LICENSE".toList] =
      .error .ENOENT ∧
    (WriteFile emptyProject ["home".toList, "u".toList, "subdir".toList, "LICENSE".toList]
      (render "Copyright (c) <YEAR> <AUTHOR>".toList "Jane Doe".toList 2024)).2 =
      some .ENOENT ∧
    (generate sampleBox emptyProject "mit".toList "Jane Doe".toList 2024
        "../subdir/LICENSE".toList).exit = .returned ∧
    (generate sampleBox emptyProject "mit".toList "Jane Doe".toList 2024
        "../subdir/LICENSE".toList).log = [] ∧
    (generate sampleBox emptyProject "mit".toList "Jane Doe".toList 2024
        "../subdir/LICENSE".toList).os.files = emptyProject.files := by
  refine ⟨rfl, rfl, by decide, by decide, by decide, by decide⟩

/-! ## File-system lemmas -/

theorem lookup_filter_ne (files : List (Path × Entry)) (p q : Path) :
    lookup (files.filter (fun x => !decide (x.1 = p))) q =
      if p = q then none else lookup files q := by
  induction files with
  | nil => simp [lookup]
  | cons x rest ih =>
    obtain ⟨k, e⟩ := x
    by_cases hk : k = p
    · subst hk
      by_cases hq : k = q
      · simpa [List.filter, lookup, hq] using ih
      · simpa [List.filter, lookup, hq] using ih
    · by_cases hq : k = q
      · subst hq
        have : ¬ p = k := fun h => hk h.symm
        simp [List.filter, lookup, hk, this]
      · simpa [List.filter, lookup, hk, hq] using ih

theorem lookup_store (files : List (Path × Entry)) (p q : Path) (e : Entry) :
    lookup (store files p e) q = if p = q then some e else lookup files q := by
  unfold store
  by_cases h : p = q
  · simp [lookup, h]
  · simpa [lookup, h] using lookup_filter_ne files p q

theorem walk_store_of_shorter (files : List (Path × Entry)) (p : Path) (e : Entry) :
    ∀ (rest cur : Path), cur.length + rest.length < p.length →
      walk (store files p e) cur rest = walk files cur rest := by
  intro rest
  induction rest with
  | nil =>
    intro cur h
    have hne : ¬ p = cur := by rintro rfl; simp at h
    simp [walk, lookup_store, hne]
  | cons c rest ih =>
    intro cur h
    have hne : ¬ p = cur := by rintro rfl; simp at h
    have hlen : (cur ++ [c]).length + rest.length < p.length := by
      simp only [List.length_append, List.length_cons, List.length_nil] at h ⊢; omega
    simp [walk, lookup_store, hne, ih (cur ++ [c]) hlen]

theorem walk_concat (files : List (Path × Entry)) (c : GoString) :
    ∀ (rest cur : Path),
      walk files cur (rest ++ [c]) =
        match walk files cur rest with
        | .error e => .error e
        | .ok (.file _) => .error .ENOTDIR
        | .ok (.dir _) =>
          match lookup files (cur ++ rest ++ [c]) with
          | some e => .ok e
          | none => .error .ENOENT := by
  intro rest
  induction rest with
  | nil =>
    intro cur
    cases h : lookup files cur with
    | none => simp [walk, h]
    | some e => cases e <;> simp [walk, h]
  | cons d rest ih =>
    intro cur
    cases h : lookup files cur with
    | none => simp [walk, h]
    | some e =>
      cases e with
      | file data => simp [walk, h]
      | dir w => simp [walk, h, ih (cur ++ [d])]

theorem Stat_of_parent (os : OS) (path : Path) (hne : path ≠ []) :
    Stat os path =
      match Stat os path.dropLast with
      | .error e => .error e
      | .ok (.file _) => .error .ENOTDIR
      | .ok (.dir _) =>
        match lookup os.files path with
        | some e => .ok e
        | none => .error .ENOENT := by
  have hsplit : path = path.dropLast ++ [path.getLast hne] :=
    (List.dropLast_append_getLast hne).symm
  unfold Stat
  conv_lhs => rw [hsplit]
  rw [walk_concat]
  simp only [List.nil_append]
  rw [← hsplit]

theorem WriteFile_ok (os : OS) (path : Path) (data : GoString)
    (hok : (WriteFile os path data).2 = none) :
    path ≠ [] ∧ (∃ w, Stat os path.dropLast = .ok (.dir w)) ∧
    (WriteFile os path data).1 = { os with files := store os.files path (.file data) } := by
  unfold WriteFile at hok ⊢
  by_cases hne : path = []
  · simp [hne] at hok
  · simp only [hne, if_false] at hok ⊢
    refine ⟨hne, ?_⟩
    cases hpar : Stat os path.dropLast with
    | error e => simp [hpar] at hok
    | ok ent =>
      cases ent with
      | file d => simp [hpar] at hok
      | dir w =>
        simp only [hpar] at hok ⊢
        refine ⟨⟨w, rfl⟩, ?_⟩
        cases hl : lookup os.files path with
        | none =>
          simp only [hl] at hok ⊢
          by_cases hw : w = true
          · simp [hw]
          · simp [hw] at hok
        | some ent2 =>
          cases ent2 with
          | dir w2 => simp [hl] at hok
          | file d2 => simp [hl]

/-- After a write that succeeded, the path holds a file with the data written. -/
theorem Stat_WriteFile (os : OS) (path : Path) (data : GoString)
    (hok : (WriteFile os path data).2 = none) :
    Stat (WriteFile os path data).1 path = .ok (.file data) := by
  obtain ⟨hne, ⟨w, hpar⟩, hos⟩ := WriteFile_ok os path data hok
  have hshort : walk (store os.files path (.file data)) [] path.dropLast
      = walk os.files [] path.dropLast := by
    apply walk_store_of_shorter
    have : 0 < path.length := List.length_pos.mpr hne
    simp only [List.length_nil, List.length_dropLast]; omega
  rw [hos, Stat_of_parent _ _ hne]
  unfold Stat at hpar ⊢
  simp [hshort, hpar, lookup_store]

/-- A write can only succeed where the path is free or holds an entry. -/
theorem Stat_of_WriteFile_ok (os : OS) (path : Path) (data : GoString)
    (hok : (WriteFile os path data).2 = none) (hfree : ∀ e, Stat os path ≠ .ok e) :
    Stat os path = .error .ENOENT := by
  obtain ⟨hne, ⟨w, hpar⟩, -⟩ := WriteFile_ok os path data hok
  rw [Stat_of_parent _ _ hne] at hfree ⊢
  simp only [hpar] at hfree ⊢
  cases hl : lookup os.files path with
  | none => rfl
  | some ent2 => exact absurd (by simp [hl]) (hfree ent2)

/-- C8: on a state where nothing exists at the resolved path and the write of the
first call succeeds, two calls of `generate` for the same output leave at the path
the text rendered by the first call; the second call, whatever its license, author
and year, changes nothing, asks the template box for nothing and returns. -/
theorem generate_twice (box : Box) (os : OS) (license₁ name₁ : GoString) (year₁ : Int)
    (license₂ name₂ : GoString) (year₂ : Int) (output : GoString) (path : Path)
    (txt : GoString)
    (hpath : resolve os.wd output = .ok path)
    (hfree : ∀ e, Stat os path ≠ .ok e)
    (htxt : getTemplate box license₁ = .ok txt)
    (hwrite : (WriteFile os path (render txt name₁ year₁)).2 = none) :
    Stat (generate box os license₁ name₁ year₁ output).os path =
      .ok (.file (render txt name₁ year₁)) ∧
    (generate box os license₁ name₁ year₁ output).exit = .returned ∧
    (generate box (generate box os license₁ name₁ year₁ output).os
      license₂ name₂ year₂ output).os = (generate box os license₁ name₁ year₁ output).os ∧
    Stat (generate box (generate box os license₁ name₁ year₁ output).os
      license₂ name₂ year₂ output).os path = .ok (.file (render txt name₁ year₁)) ∧
    (generate box (generate box os license₁ name₁ year₁ output).os
      license₂ name₂ year₂ output).loaded = [] ∧
    (generate box (generate box os license₁ name₁ year₁ output).os
      license₂ name₂ year₂ output).exit = .returned := by
  have hstat := Stat_of_WriteFile_ok os path _ hwrite hfree
  have hfirst : generate box os license₁ name₁ year₁ output =
      { os := (WriteFile os path (render txt name₁ year₁)).1, log := [],
        loaded := [license₁ ++ ".txt".toList], exit := .returned } := by
    simp [generate, hpath, isExists, hstat, IsNotExist, htxt]
  have hwd : (WriteFile os path (render txt name₁ year₁)).1.wd = os.wd := by
    rw [(WriteFile_ok os path _ hwrite).2.2]
  have hafter := Stat_WriteFile os path _ hwrite
  rw [hfirst]
  refine ⟨hafter, rfl, ?_, ?_, ?_, ?_⟩ <;>
    simp [generate, hwd, hpath, isExists, hafter, IsNotExist]

theorem generate_twice_witness :
    Stat (generate sampleBox emptyProject "mit".toList "Jane Doe".toList 2024
        "./LICENSE".toList).os (projDir ++ ["LICENSE".toList]) =
      .ok (.file (render "Copyright (c) <YEAR> <AUTHOR>".toList "Jane Doe".toList 2024)) ∧
    (generate sampleBox emptyProject "mit".toList "Jane Doe".toList 2024
        "./LICENSE".toList).exit = .returned ∧
    (generate sampleBox (generate sampleBox emptyProject "mit".toList "Jane Doe".toList 2024
        "./LICENSE".toList).os "gpl".toList "John Roe".toList 1999 "./LICENSE".toList).os =
      (generate sampleBox emptyProject "mit".toList "Jane Doe".toList 2024
        "./LICENSE".toList).os ∧
    Stat (generate sampleBox (generate sampleBox emptyProject "mit".toList "Jane Doe".toList
        2024 "./LICENSE".toList).os "gpl".toList "John Roe".toList 1999
        "./LICENSE".toList).os (projDir ++ ["LICENSE".toList]) =
      .ok (.file (render "Copyright (c) <YEAR> <AUTHOR>".toList "Jane Doe".toList 2024)) ∧
    (generate sampleBox (generate sampleBox emptyProject "mit".toList "Jane Doe".toList 2024
        "./LICENSE".toList).os "gpl".toList "John Roe".toList 1999 "./LICENSE".toList).loaded
      = [] ∧
    (generate sampleBox (generate sampleBox emptyProject "mit".toList "Jane Doe".toList 2024
        "./LICENSE".toList).os "gpl".toList "John Roe".toList 1999 "./LICENSE".toList).exit
      = .returned :=
  generate_twice sampleBox emptyProject "mit".toList "Jane Doe".toList 2024
    "gpl".toList "John Roe".toList 1999 "./LICENSE".toList (projDir ++ ["LICENSE".toList])
    "Copyright (c) <YEAR> <AUTHOR>".toList rfl (by intro e; rw [show Stat emptyProject (projDir ++ ["LICENSE".toList]) = .error .ENOENT from rfl]; simp) rfl (by decide)

end GenLicense
